import Mathlib

/-!
Verification of the team-scraping pipeline (`src/vgc_bench/scrape_teams.py`)
of the vgc-continual-rl repository.

Python strings are modelled as `List Char`.  Library routines used by the
source (`unicodedata.normalize`, `str` methods, `re` patterns restricted to
the fixed patterns appearing in the source, `datetime.strptime` restricted to
the fixed formats appearing in the source) are embedded as executable Lean
functions whose behaviour matches the library on the character classes the
pipeline manipulates; each such embedding carries a doc comment stating the
modelling assumptions.
-/

set_option autoImplicit false

namespace VGC

/-- A Python string, modelled as its list of characters. -/
abbrev Str := List Char

/-- Model of Python's whitespace class (`str.strip` with no argument and the
regex class `\s`): space, tab, newline, carriage return, vertical tab and
form feed.  (The Unicode-only whitespace code points are not modelled; no
claim depends on them.) -/
def pyWs (c : Char) : Bool :=
  c = ' ' || c = '\t' || c = '\n' || c = '\r' || c = '\x0b' || c = '\x0c'

/-- Model of `str.lstrip()`. -/
def pyLstrip (s : Str) : Str := s.dropWhile pyWs

/-- Model of `str.rstrip()`. -/
def pyRstrip (s : Str) : Str := (s.reverse.dropWhile pyWs).reverse

/-- Model of `str.strip()`. -/
def pyStrip (s : Str) : Str := pyRstrip (pyLstrip s)

/-- ASCII word character, the regex class `\w` restricted to ASCII (the
source only ever probes word boundaries next to ASCII letters and digits). -/
def isWordChar (c : Char) : Bool := c.isAlphanum || c = '_'

/-- The character class `[a-z0-9]` used by `slugify`'s substitutions. -/
def isSlugChar (c : Char) : Bool :=
  ('a' ≤ c && c ≤ 'z') || ('0' ≤ c && c ≤ '9')

/-- Case-insensitive prefix test: does `s` start with the (pre-lowercased)
pattern `pat`?  Models matching a literal with `re.IGNORECASE` on ASCII. -/
def takeIsCI (pat s : Str) : Bool := (s.take pat.length).map Char.toLower == pat

/-- Case-sensitive prefix test, models `str.startswith`. -/
def takeIsCS (pat s : Str) : Bool := s.take pat.length == pat

/-- Model of Python's substring containment test `pat in s`. -/
def strContains (pat : Str) : Str → Bool
  | [] => pat == []
  | c :: rest => takeIsCS pat (c :: rest) || strContains pat rest

/-- Model of `str.split(sep)` for a single-character separator. -/
def splitOnCh (sep : Char) : Str → List Str
  | [] => [[]]
  | c :: rest =>
    let r := splitOnCh sep rest
    if c = sep then [] :: r
    else (c :: r.headD []) :: r.tail

/-- Model of `"sep".join(parts)` for string separators. -/
def joinWith (sep : Str) : List Str → Str
  | [] => []
  | [x] => x
  | x :: y :: t => x ++ sep ++ joinWith sep (y :: t)

/-- Rewrites the line boundaries `\r\n` and `\r` to `\n`. -/
def crToLf : Str → Str
  | [] => []
  | '\r' :: '\n' :: rest => '\n' :: crToLf rest
  | '\r' :: rest => '\n' :: crToLf rest
  | c :: rest => c :: crToLf rest

/-- Drops a trailing empty line (produced by a terminating newline). -/
def dropFinalEmpty (ls : List Str) : List Str :=
  if ls.getLastD ['\n'] = [] then ls.dropLast else ls

/-- Model of Python `str.splitlines()` on the line boundaries `\n`, `\r\n`
and `\r`: normalize boundaries to `\n`, split, and drop the empty final
line a terminating boundary would otherwise create.  (The exotic Unicode
boundary characters are not modelled; the pipeline's inputs and outputs
only ever contain the three above.) -/
def splitlinesPy (s : Str) : List Str :=
  dropFinalEmpty (splitOnCh '\n' (crToLf s))

/-- Model of `unicodedata.normalize("NFKD", ·)` applied characterwise.
NFKD fixes every ASCII character; the table below lists the compatibility
decompositions of the non-ASCII code points used in concrete inputs of this
development ('™' → "TM", 'é' → "e" + combining acute, '½' → "1⁄2").  Other
non-ASCII code points are left undecomposed, which is the only respect in
which the model is partial; no theorem below depends on them. -/
def nfkdChar (c : Char) : List Char :=
  if c = '\u2122' then ['T', 'M']
  else if c = '\u00e9' then ['e', '\u0301']
  else if c = '\u00bd' then ['1', '\u2044', '2']
  else [c]

/-- Model of `str.encode("ascii", "ignore").decode("ascii")`: drop every
non-ASCII character. -/
def asciiIgnore (s : Str) : Str := s.filter (fun c => c.toNat < 128)

/-- Model of `re.sub(r"[^a-z0-9]+", "_", s)`: each maximal run of
characters outside `[a-z0-9]` becomes a single underscore.  The Boolean
flag records whether the previous character was inside such a run. -/
def slugSubAux : Bool → Str → Str
  | _, [] => []
  | inRun, c :: rest =>
    if isSlugChar c then c :: slugSubAux false rest
    else if inRun then slugSubAux true rest
    else '_' :: slugSubAux true rest

/-- Model of `re.sub(r"_+", "_", s)`: collapse underscore runs. -/
def undCollapseAux : Bool → Str → Str
  | _, [] => []
  | inRun, c :: rest =>
    if c = '_' then
      if inRun then undCollapseAux true rest else '_' :: undCollapseAux true rest
    else c :: undCollapseAux false rest

/-- Model of `str.strip("_")`: drop leading and trailing underscores. -/
def stripUnd (s : Str) : Str :=
  ((s.dropWhile (· = '_')).reverse.dropWhile (· = '_')).reverse

/-- Model of `slugify` (scrape_teams.py:27-41): NFKD-normalize, drop non-ASCII,
lowercase, replace runs of non-`[a-z0-9]` characters by single underscores,
collapse underscore runs, and strip boundary underscores.
(`str.lower` is modelled by `Char.toLower`, exact on the ASCII characters
present after the `ascii`-ignoring encode.) -/
def slugify (text : Str) : Str :=
  let t1 := text.flatMap nfkdChar
  let t2 := asciiIgnore t1
  let t3 := t2.map Char.toLower
  let t4 := slugSubAux false t3
  stripUnd (undCollapseAux false t4)

/-- Model of `placement_to_filename` (scrape_teams.py:60-75): slugify the stripped
placement, canonicalize champion/winner and runner-up, and fall back to
`"unknown_placement"` when the slug is empty (Python's `normalized or
"unknown_placement"`). -/
def placement_to_filename (placement : Str) : Str :=
  let normalized := slugify (pyStrip placement)
  if normalized == "champion".toList || normalized == "winner".toList then
    "1st".toList
  else if normalized == "runner_up".toList then
    "2nd".toList
  else if normalized == [] then "unknown_placement".toList
  else normalized

/-- Word-boundary test after a match ending in a word character: the regex
`\b` holds there iff the next character is absent or not a word character. -/
def boundaryAfter : Str → Bool
  | [] => true
  | c :: _ => !isWordChar c

/-- Matcher for `\bregional\s+championships?\b` (case-insensitive) at the
start of `s`; `prevW` says whether the previous character of the scanned
string is a word character (which would defeat the leading `\b`).  Returns
the number of characters matched. -/
def regChampAt (prevW : Bool) (s : Str) : Option Nat :=
  if prevW then none
  else if takeIsCI "regional".toList s then
    let r1 := s.drop 8
    let nWs := (r1.takeWhile pyWs).length
    if nWs = 0 then none
    else
      let r2 := r1.drop nWs
      if takeIsCI "championship".toList r2 then
        let r3 := r2.drop 12
        if takeIsCI "s".toList r3 then
          if boundaryAfter (r3.drop 1) then some (8 + nWs + 13) else none
        else if boundaryAfter r3 then some (8 + nWs + 12) else none
      else none
  else none

/-- Matcher for `\bregionals?\b` (case-insensitive) at the start of `s`. -/
def regionalsAt (prevW : Bool) (s : Str) : Option Nat :=
  if prevW then none
  else if takeIsCI "regional".toList s then
    let r1 := s.drop 8
    if takeIsCI "s".toList r1 then
      if boundaryAfter (r1.drop 1) then some 9 else none
    else if boundaryAfter r1 then some 8 else none
  else none

/-- Matcher for `\b\d{4}\b`: exactly four digits delimited by word
boundaries at the start of `s`. -/
def year4At (prevW : Bool) (s : Str) : Option Nat :=
  if prevW then none
  else
    let ds := s.takeWhile Char.isDigit
    if ds.length = 4 && boundaryAfter (s.drop 4) then some 4 else none

/-- Driver for `re.sub(pattern, "", s)` for the word-boundary patterns
above: scan left to right, delete each non-overlapping match, and track
whether the previous character of the original string is a word character
(every pattern above ends in a word character, so after a match the flag is
true).  `fuel` bounds the recursion; every step consumes at least one
character, so `s.length + 1` fuel always suffices and the zero-fuel
fallback is unreachable. -/
def subPhraseFuel (matchAt : Bool → Str → Option Nat) : Nat → Bool → Str → Str
  | 0, _, s => s
  | _ + 1, _, [] => []
  | fuel + 1, prevW, c :: rest =>
    match matchAt prevW (c :: rest) with
    | some n => subPhraseFuel matchAt fuel true ((c :: rest).drop n)
    | none => c :: subPhraseFuel matchAt fuel (isWordChar c) rest

/-- Model of `re.sub(r"\s+", " ", s)`: collapse whitespace runs to one
space. -/
def wsCollapseAux : Bool → Str → Str
  | _, [] => []
  | inRun, c :: rest =>
    if pyWs c then
      if inRun then wsCollapseAux true rest else ' ' :: wsCollapseAux true rest
    else c :: wsCollapseAux false rest

/-- Model of `normalize_event_name` (scrape_teams.py:44-57): strip, delete the
word-bounded case-insensitive phrases `regional championships?` and
`regionals?`, collapse whitespace and strip again. -/
def normalize_event_name (event_name : Str) : Str :=
  let name := pyStrip event_name
  let name1 := subPhraseFuel regChampAt (name.length + 1) false name
  let name2 := subPhraseFuel regionalsAt (name1.length + 1) false name1
  pyStrip (wsCollapseAux false name2)

/-- Matcher for `\b(20\d{2})\b` at the start of `s`, returning the matched
four characters. -/
def year20At (prevW : Bool) (s : Str) : Option Str :=
  if prevW then none
  else
    match s with
    | c0 :: c1 :: c2 :: c3 :: rest =>
      if c0 = '2' && c1 = '0' && c2.isDigit && c3.isDigit && boundaryAfter rest then
        some [c0, c1, c2, c3]
      else none
    | _ => none

/-- Model of `re.search(r"\b(20\d{2})\b", s)`: leftmost match. -/
def searchYear20 : Bool → Str → Option Str
  | _, [] => none
  | prevW, c :: rest =>
    match year20At prevW (c :: rest) with
    | some y => some y
    | none => searchYear20 (isWordChar c) rest

/-- A parsed calendar date (the `datetime` fields the pipeline reads). -/
structure PyDate where
  year : Nat
  month : Nat
  day : Nat
deriving DecidableEq

/-- Leap-year rule of the proleptic Gregorian calendar used by
`datetime`. -/
def isLeap (y : Nat) : Bool := (y % 4 = 0 && y % 100 ≠ 0) || y % 400 = 0

/-- Number of days of month `m` in year `y`. -/
def daysInMonth (y m : Nat) : Nat :=
  if m = 2 then (if isLeap y then 29 else 28)
  else if m = 4 || m = 6 || m = 9 || m = 11 then 30
  else 31

/-- Model of `datetime`'s constructor validation on the strptime output: the year
must be at least `MINYEAR = 1` and the day must exist in the month
(`strptime` itself already bounds the day at 31 and the year at 4 digits). -/
def mkDate (y m d : Nat) : Option PyDate :=
  if 1 ≤ y && d ≤ daysInMonth y m then some ⟨y, m, d⟩ else none

/-- English month abbreviations recognized by `strptime`'s `%b`. -/
def monthAbbr : List (Str × Nat) :=
  [("jan".toList, 1), ("feb".toList, 2), ("mar".toList, 3), ("apr".toList, 4),
   ("may".toList, 5), ("jun".toList, 6), ("jul".toList, 7), ("aug".toList, 8),
   ("sep".toList, 9), ("oct".toList, 10), ("nov".toList, 11), ("dec".toList, 12)]

/-- Full English month names recognized by `strptime`'s `%B`. -/
def monthFull : List (Str × Nat) :=
  [("january".toList, 1), ("february".toList, 2), ("march".toList, 3),
   ("april".toList, 4), ("may".toList, 5), ("june".toList, 6),
   ("july".toList, 7), ("august".toList, 8), ("september".toList, 9),
   ("october".toList, 10), ("november".toList, 11), ("december".toList, 12)]

/-- Case-insensitive month-name lookup at the start of `s`; no table entry
is a prefix of another, so first-match order is immaterial. -/
def matchMonthAux : List (Str × Nat) → Str → Option (Nat × Nat)
  | [], _ => none
  | (nm, m) :: t, s => if takeIsCI nm s then some (m, nm.length) else matchMonthAux t s

/-- The alternatives of `strptime`'s `%d` pattern `(3[01]|[12]\d|0[1-9]|[1-9])`
applicable at the start of `s`, in the regex's preference order, as
(day value, characters consumed) pairs. -/
def dayAlts : Str → List (Nat × Nat)
  | [] => []
  | [c0] => if '1' ≤ c0 && c0 ≤ '9' then [(c0.toNat - 48, 1)] else []
  | c0 :: c1 :: _ =>
    (if c0 = '3' && (c1 = '0' || c1 = '1') then [(30 + (c1.toNat - 48), 2)] else []) ++
    (if (c0 = '1' || c0 = '2') && c1.isDigit then
      [(10 * (c0.toNat - 48) + (c1.toNat - 48), 2)] else []) ++
    (if c0 = '0' && '1' ≤ c1 && c1 ≤ '9' then [(c1.toNat - 48, 2)] else []) ++
    (if '1' ≤ c0 && c0 ≤ '9' then [(c0.toNat - 48, 1)] else [])

/-- Numeric value of a digit string. -/
def natOfDigits (s : Str) : Nat := s.foldl (fun n c => 10 * n + (c.toNat - 48)) 0

/-- Continuation of a `%d %b %Y`-shaped format after the day: whitespace
run (`strptime` turns a format-string space into `\s+`), month name from
`tbl`, optional literal comma, whitespace run, exactly four digits, end of
input, then `datetime` validation. -/
def parseAfterDay (tbl : List (Str × Nat)) (comma : Bool) (d : Nat) (s : Str) :
    Option PyDate :=
  let n1 := (s.takeWhile pyWs).length
  if n1 = 0 then none
  else
    let s1 := s.drop n1
    match matchMonthAux tbl s1 with
    | none => none
    | some (m, k) =>
      let s2 := s1.drop k
      let s3 := if comma then (if s2.headD ' ' = ',' then some s2.tail else none)
                else some s2
      match s3 with
      | none => none
      | some s4 =>
        let n2 := (s4.takeWhile pyWs).length
        if n2 = 0 then none
        else
          let s5 := s4.drop n2
          if s5.length = 4 && s5.all Char.isDigit then mkDate (natOfDigits s5) m d
          else none

/-- Backtracking over the `%d` alternatives. -/
def tryDayAlts (tbl : List (Str × Nat)) (comma : Bool) :
    List (Nat × Nat) → Str → Option PyDate
  | [], _ => none
  | (d, k) :: alts, s =>
    match parseAfterDay tbl comma d (s.drop k) with
    | some dt => some dt
    | none => tryDayAlts tbl comma alts s

/-- Model of `datetime.strptime(s, fmt)` for the day-month-year formats of
the source (`%d %b %Y`, `%d %B %Y` and the comma variants). -/
def parseDMY (tbl : List (Str × Nat)) (comma : Bool) (s : Str) : Option PyDate :=
  tryDayAlts tbl comma (dayAlts s) s

/-- Model of `datetime.strptime(s, fmt)` for the month-year formats
(`%b %Y`, `%B %Y`); the day defaults to 1. -/
def parseMY (tbl : List (Str × Nat)) (s : Str) : Option PyDate :=
  match matchMonthAux tbl s with
  | none => none
  | some (m, k) =>
    let s1 := s.drop k
    let n := (s1.takeWhile pyWs).length
    if n = 0 then none
    else
      let s2 := s1.drop n
      if s2.length = 4 && s2.all Char.isDigit then mkDate (natOfDigits s2) m 1
      else none

/-- Model of `s.replace("Sept", "Sep")`: replace every (case-sensitive,
non-overlapping, left-to-right) occurrence.  Every step consumes at least
one character, so `s.length + 1` fuel suffices. -/
def replaceSeptFuel : Nat → Str → Str
  | 0, s => s
  | _ + 1, [] => []
  | fuel + 1, c :: rest =>
    if takeIsCS "Sept".toList (c :: rest) then
      'S' :: 'e' :: 'p' :: replaceSeptFuel fuel ((c :: rest).drop 4)
    else c :: replaceSeptFuel fuel rest

/-- Matcher for the fallback pattern `\b(\d{1,2}\s+[A-Za-z]{3,9}\s+\d{4})\b`
at the start of `s`: a digit run of length 1 or 2, a whitespace run, a
letter run of length 3 to 9, a whitespace run, and a digit run of exactly
4 ended by a word boundary (runs are maximal, which is what the regex's
backtracking reduces to here).  Returns the matched group. -/
def embDateAt (prevW : Bool) (s : Str) : Option Str :=
  if prevW then none
  else
    let d1 := s.takeWhile Char.isDigit
    if d1.length = 0 || 2 < d1.length then none
    else
      let s1 := s.drop d1.length
      let w1 := s1.takeWhile pyWs
      if w1.length = 0 then none
      else
        let s2 := s1.drop w1.length
        let l1 := s2.takeWhile Char.isAlpha
        if l1.length < 3 || 9 < l1.length then none
        else
          let s3 := s2.drop l1.length
          let w2 := s3.takeWhile pyWs
          if w2.length = 0 then none
          else
            let s4 := s3.drop w2.length
            let d2 := s4.takeWhile Char.isDigit
            if d2.length = 4 && boundaryAfter (s4.drop 4) then
              some (d1 ++ w1 ++ l1 ++ w2 ++ d2)
            else none

/-- Model of `re.search` for the fallback pattern: leftmost match. -/
def findEmbDate : Bool → Str → Option Str
  | _, [] => none
  | prevW, c :: rest =>
    match embDateAt prevW (c :: rest) with
    | some g => some g
    | none => findEmbDate (isWordChar c) rest

/-- Model of `parse_event_date` (scrape_teams.py:78-102): strip, rewrite `Sept` to
`Sep`, try the six fixed formats in order, then fall back to scanning for
an embedded `DD Mon YYYY` / `DD Month YYYY` substring; `None` when
everything fails. -/
def parse_event_date (date_str : Str) : Option PyDate :=
  let stripped := pyStrip date_str
  let ds := replaceSeptFuel (stripped.length + 1) stripped
  if ds = [] then none
  else
    match parseDMY monthAbbr false ds with
    | some dt => some dt
    | none =>
    match parseDMY monthFull false ds with
    | some dt => some dt
    | none =>
    match parseDMY monthAbbr true ds with
    | some dt => some dt
    | none =>
    match parseDMY monthFull true ds with
    | some dt => some dt
    | none =>
    match parseMY monthAbbr ds with
    | some dt => some dt
    | none =>
    match parseMY monthFull ds with
    | some dt => some dt
    | none =>
    match findEmbDate false ds with
    | none => none
    | some g =>
      match parseDMY monthAbbr false g with
      | some dt => some dt
      | none => parseDMY monthFull false g

/-- Model of `event_dir_name` (scrape_teams.py:105-127): slugify the normalized
event name with bare 4-digit year tokens removed (falling back to the
normalized name, then to `"event"`), then append a year taken from a
`20\d\d` token of the original name, or from the parsed date, or nothing. -/
def event_dir_name (event_name date_str : Str) : Str :=
  let nn := normalize_event_name event_name
  let normalized_name := pyStrip (subPhraseFuel year4At (nn.length + 1) false nn)
  let base :=
    if slugify normalized_name ≠ [] then slugify normalized_name
    else if slugify (normalize_event_name event_name) ≠ [] then
      slugify (normalize_event_name event_name)
    else "event".toList
  match searchYear20 false event_name with
  | some y => base ++ '_' :: y
  | none =>
    match parse_event_date date_str with
    | some dt => base ++ '_' :: Nat.toDigits 10 dt.year
    | none => base

/-- Model of `event_key` (scrape_teams.py:130-152): the dedup key; the source body
is literally identical to `event_dir_name`'s. -/
def event_key (event_name date_str : Str) : Str :=
  let nn := normalize_event_name event_name
  let normalized_name := pyStrip (subPhraseFuel year4At (nn.length + 1) false nn)
  let base :=
    if slugify normalized_name ≠ [] then slugify normalized_name
    else if slugify (normalize_event_name event_name) ≠ [] then
      slugify (normalize_event_name event_name)
    else "event".toList
  match searchYear20 false event_name with
  | some y => base ++ '_' :: y
  | none =>
    match parse_event_date date_str with
    | some dt => base ++ '_' :: Nat.toDigits 10 dt.year
    | none => base

/-- The single-line instance of the ability regexes
`^\s*Ability:\s*Illusion\s*$` / `^\s*Ability:\s*Commander\s*$`
(case-insensitive): one line consisting of whitespace, the literal
`Ability:`, whitespace, the ability name and trailing whitespace only. -/
def abilityExactLine (abil : Str) (line : Str) : Bool :=
  let r := line.dropWhile pyWs
  takeIsCI "ability:".toList r &&
    (let r2 := (r.drop 8).dropWhile pyWs
     takeIsCI abil r2 && (r2.drop abil.length).all pyWs)

/-- One attempt of the `MULTILINE` search for `^\s*Ability:\s*ABIL\s*$`,
anchored at a line start: `s` is the text from the `^` position onward.
Each inner `\s*` must stop at the first non-whitespace character (the
letters `a`/`i`/`c` that follow are not whitespace), so it consumes a
maximal whitespace run, which — `\s` matching `\n` — may span line
boundaries.  `$` matches at the end of the text or just before a `\n`,
so the trailing `\s*$` succeeds exactly when a `\n` occurs in the
whitespace run after the ability name or the whole remainder is
whitespace. -/
def abilityFrom (abil : Str) (s : Str) : Bool :=
  let r := s.dropWhile pyWs
  takeIsCI "ability:".toList r &&
    (let r2 := (r.drop 8).dropWhile pyWs
     takeIsCI abil r2 &&
       (let v := r2.drop abil.length
        (v.takeWhile pyWs).any (· == '\n') || (v.dropWhile pyWs).isEmpty))

/-- All the `^` anchor positions of a `MULTILINE` `re.search`: try the
anchored pattern at the start of the text and after every `\n`.  The
Boolean records whether the current position is a line start. -/
def bannedWalk (abil : Str) : Bool → Str → Bool
  | _, [] => false
  | atStart, c :: t =>
    (atStart && abilityFrom abil (c :: t)) || bannedWalk abil (c == '\n') t

/-- Model of `has_banned_move_or_ability` (scrape_teams.py:259-277): a
`re.search` for `^\s*Ability:\s*Illusion\s*$`, then for
`^\s*Ability:\s*Commander\s*$`, with `IGNORECASE | MULTILINE`.  `^`
matches at the start of the text and after each `\n`, and the `\s*` runs
may span newlines. -/
def has_banned_move_or_ability (team_text : Str) : Bool :=
  bannedWalk "illusion".toList true team_text ||
    bannedWalk "commander".toList true team_text

/-- The block-building loop of `normalize_team_text` (scrape_teams.py:
298-308): group maximal runs of nonempty lines, dropping blank lines. -/
def blocksLoop : List Str → List Str → List (List Str)
  | [], block => if block = [] then [] else [block]
  | l :: rest, block =>
    if l = [] then
      if block = [] then blocksLoop rest [] else block :: blocksLoop rest []
    else blocksLoop rest (block ++ [l])

/-- Matcher for `\bCalyrex-Ice\b` (case-insensitive) at the start of `s`. -/
def calyrexIceAt (prevW : Bool) (s : Str) : Bool :=
  !prevW && takeIsCI "calyrex-ice".toList s && boundaryAfter (s.drop 11)

/-- Model of `re.search(r"\bCalyrex-Ice\b", s, re.IGNORECASE)`. -/
def searchCalyrexIce : Bool → Str → Bool
  | _, [] => false
  | prevW, c :: rest =>
    calyrexIceAt prevW (c :: rest) || searchCalyrexIce (isWordChar c) rest

/-- Model of `re.match(r"^(\s*Ability:\s*)(.*?)\s*$", line, re.IGNORECASE)`
on a single (newline-free) line: when the line starts with whitespace and
the literal `Ability:`, returns group 1 (leading whitespace, the literal
as written, and the whitespace after the colon) and group 2 (the value
with surrounding whitespace stripped). -/
def matchAbilityLine (line : Str) : Option (Str × Str) :=
  let pre := line.takeWhile pyWs
  let rest := line.dropWhile pyWs
  if takeIsCI "ability:".toList rest then
    let lit := rest.take 8
    let after := rest.drop 8
    let ws2 := after.takeWhile pyWs
    let value := pyRstrip (after.dropWhile pyWs)
    some (pre ++ lit ++ ws2, value)
  else none

/-- The `As One` disambiguation target for a block headed by Calyrex-Ice. -/
def asOneGl : Str := "As One (Glastrier)".toList

/-- The `As One` disambiguation target for every other block. -/
def asOneSp : Str := "As One (Spectrier)".toList

/-- The per-line rewrite of `normalize_team_text` (scrape_teams.py:
317-325): when the line is an ability line whose value normalizes (lower
case, non-`[a-z0-9]` dropped) to `asone`, replace the value by the
disambiguated form. -/
def rewriteLine (asone : Str) (line : Str) : Str :=
  match matchAbilityLine line with
  | none => line
  | some (g1, value) =>
    if (value.map Char.toLower).filter isSlugChar == "asone".toList then g1 ++ asone
    else line

/-- The per-block pass of `normalize_team_text` (scrape_teams.py:310-326):
pick the `As One` form from the block's header line, then rewrite each
line.  (`blocksLoop` only emits nonempty blocks, so the `headD` default is
unreachable.) -/
def normBlockLines (block : List Str) : List Str :=
  let asone := if searchCalyrexIce false (block.headD []) then asOneGl else asOneSp
  block.map (rewriteLine asone)

/-- Model of `normalize_team_text` (scrape_teams.py:280-327): strip each line's
trailing whitespace, drop leading and trailing blank lines, split into
blank-line-separated blocks, rewrite ambiguous `As One` ability lines per
block, and reassemble with single blank lines between blocks and one
trailing newline. -/
def normalize_team_text (team_text : Str) : Str :=
  let lines0 := (splitlinesPy team_text).map pyRstrip
  let lines1 := lines0.dropWhile (· = [])
  let lines2 := (lines1.reverse.dropWhile (· = [])).reverse
  let blocks := blocksLoop lines2 []
  joinWith "\n\n".toList
      (blocks.map (fun b => joinWith "\n".toList (normBlockLines b))) ++
    "\n".toList

/-- The column indices resolved from a sheet's header row
(scrape_teams.py:359-364). -/
structure SheetCols where
  categoryIdx : Nat
  evsIdx : Nat
  pokepasteIdx : Nat
  eventIdx : Nat
  rankIdx : Nat
  dateIdx : Nat
deriving DecidableEq

/-- Model of Python `list.index` returning `none` instead of raising
`ValueError` (which would abort the run). -/
def findIdxOf (x : Str) : List Str → Option Nat
  | [] => none
  | y :: t => if y == x then some 0 else (findIdxOf x t).map (· + 1)

/-- Column resolution of the orchestrator (scrape_teams.py:359-364): every
column except the date by exact header text via `list.index`; the date
column by header text when a `Date` header exists, and otherwise the
position just left of the event column (`event_idx - 1`).  `none` models
the uncaught `ValueError` of a missing required header.  (`event_idx - 1`
uses truncated subtraction; the orchestrator only calls this on header
rows whose first cell strips to `Team ID`, which forces `event_idx ≥ 1`,
so this agrees with Python's `int` arithmetic there.) -/
def resolveCols (header : List Str) : Option SheetCols :=
  match findIdxOf "Category".toList header, findIdxOf "EVs".toList header,
      findIdxOf "Pokepaste".toList header,
      findIdxOf "Tournament / Event".toList header,
      findIdxOf "Rank".toList header with
  | some ci, some vi, some pk, some ti, some ri =>
    some ⟨ci, vi, pk, ti, ri,
      match findIdxOf "Date".toList header with
      | some di => di
      | none => ti - 1⟩
  | _, _, _, _, _ => none

/-- Header-row search of the orchestrator (scrape_teams.py:353-357): first
row whose first cell strips to `Team ID` and which contains a `Pokepaste`
cell.  `none` models the uncaught `StopIteration` of the defaultless
`next(...)` when no row qualifies. -/
def findHeaderIdx : List (List Str) → Option Nat
  | [] => none
  | r :: rest =>
    if !r.isEmpty && pyStrip (r.headD []) == "Team ID".toList &&
        r.contains "Pokepaste".toList then some 0
    else (findHeaderIdx rest).map (· + 1)

/-- The fixed data source of one `scrape_regulation` run (the claims under
verification fix the sheet names, CSV rows, paste texts and similarity
scores): `sheets` holds the CSV rows of each selected featured-team sheet
in order; `http` models `session.get(url).text` for the pokepaste raw
URLs; `parseOk` is the external `Teambuilder.parse_showdown_team` oracle
(`false` ↔ it raises the caught `KeyError`); `simEq1` is the external
`calc_team_similarity_score(a, b) == 1.0` test. -/
structure ScrapeEnv where
  sheets : List (List (List Str))
  http : Str → Str
  parseOk : Str → Bool
  simEq1 : Str → Str → Bool

/-- The mutable state of one `scrape_regulation` run: the in-run ledger
`seen` (`seen_teams`), the memoized event directories (`event_subdirs`,
as an association list), the filesystem `fs` as a list of
(path, contents) pairs, and the four counters. -/
structure ScrapeState where
  seen : List Str
  subdirs : List (Str × Str)
  fs : List (Str × Str)
  saved : Nat
  skippedExisting : Nat
  skippedBanned : Nat
  skippedDuplicates : Nat
deriving DecidableEq

/-- The last `/`-separated segment of a string. -/
def lastSegAfterSlash (s : Str) : Str := (splitOnCh '/' s).getLastD []

/-- Model of `fetch_pokepaste_raw` (scrape_teams.py:241-256): extract the paste id
(last path segment after stripping trailing slashes), fetch the raw-text
endpoint, and normalize. -/
def fetch_pokepaste_raw (env : ScrapeEnv) (pokepaste_url : Str) : Str :=
  let pasteId := lastSegAfterSlash ((pokepaste_url.reverse.dropWhile (· = '/')).reverse)
  normalize_team_text
    (env.http ("https://pokepast.es/".toList ++ pasteId ++ "/raw".toList))

/-- Outcome of the per-row checks that precede the file-existence test:
silently skipped, counted as banned, counted as duplicate, or reaching the
existence test with a team text and target path. -/
inductive RowOut where
  | silent
  | banned
  | dup
  | reach (team : Str) (path : Str)
deriving DecidableEq

/-- The fs-independent part of the per-row body of `scrape_regulation`
(scrape_teams.py:365-415), in source order: the short-row guard, the
category / EVs / paste-URL requirements, fetch + normalize, the banned
check, the parse check, the duplicate check (the ledger is appended to as
soon as it passes), the event-keyword / division / multi-event /placement
requirements, the event-directory memoization, and the numeric-placement
requirement.  Returns the outcome together with the updated ledger and
directory memo. -/
def rowStep (env : ScrapeEnv) (cols : SheetCols) (regDir : Str)
    (seen : List Str) (subdirs : List (Str × Str)) (row : List Str) :
    RowOut × List Str × List (Str × Str) :=
  let maxIdx := max cols.categoryIdx (max cols.evsIdx (max cols.pokepasteIdx
    (max cols.eventIdx (max cols.rankIdx cols.dateIdx))))
  if row.length ≤ maxIdx then (.silent, seen, subdirs)
  else if (pyStrip (row.getD cols.categoryIdx [])).map Char.toLower ≠
      "in person event".toList then (.silent, seen, subdirs)
  else if (pyStrip (row.getD cols.evsIdx [])).map Char.toLower ≠
      "yes".toList then (.silent, seen, subdirs)
  else
    let pokepaste := pyStrip (row.getD cols.pokepasteIdx [])
    if !takeIsCS "https://pokepast.es/".toList pokepaste then (.silent, seen, subdirs)
    else
      let team_text := fetch_pokepaste_raw env pokepaste
      if has_banned_move_or_ability team_text then (.banned, seen, subdirs)
      else if !env.parseOk team_text then (.silent, seen, subdirs)
      else if seen.any (fun prev => env.simEq1 team_text prev) then
        (.dup, seen, subdirs)
      else
        let seen' := seen ++ [team_text]
        let event_name := pyStrip (row.getD cols.eventIdx [])
        let event_lower := event_name.map Char.toLower
        if !(strContains "regional".toList event_lower ||
            strContains "euic".toList event_lower ||
            strContains "laic".toList event_lower ||
            strContains "naic".toList event_lower ||
            strContains "worlds".toList event_lower) then (.silent, seen', subdirs)
        else if strContains "seniors".toList event_lower ||
            strContains "juniors".toList event_lower then (.silent, seen', subdirs)
        else if strContains "&".toList event_name then (.silent, seen', subdirs)
        else
          let date_str := pyStrip (row.getD cols.dateIdx [])
          let placement := pyStrip (row.getD cols.rankIdx [])
          if strContains "juniors".toList placement ||
              strContains "seniors".toList placement then (.silent, seen', subdirs)
          else
            let key := event_key event_name date_str
            let subdirs' :=
              if (subdirs.lookup key).isSome then subdirs
              else subdirs ++
                [(key, regDir ++ '/' :: event_dir_name event_name date_str)]
            let event_subdir := (subdirs'.lookup key).getD []
            match placement_to_filename placement with
            -- unreachable: placement_to_filename never returns the empty
            -- string, so `base_filename[0]` cannot raise
            | [] => (.silent, seen', subdirs')
            | c :: cs =>
              if !c.isDigit then (.silent, seen', subdirs')
              else
                (.reach team_text
                  (event_subdir ++ '/' :: (c :: cs ++ ".txt".toList)),
                  seen', subdirs')

/-- The full per-row body (scrape_teams.py:365-421): the fs-independent
checks, then the file-existence test — an existing path is counted as
already existing, otherwise the file is written and counted as saved. -/
def processRow (env : ScrapeEnv) (cols : SheetCols) (regDir : Str)
    (st : ScrapeState) (row : List Str) : ScrapeState :=
  match rowStep env cols regDir st.seen st.subdirs row with
  | (.silent, seen', sub') => { st with seen := seen', subdirs := sub' }
  | (.banned, seen', sub') =>
    { st with
      seen := seen'
      subdirs := sub'
      skippedBanned := st.skippedBanned + 1 }
  | (.dup, seen', sub') =>
    { st with
      seen := seen'
      subdirs := sub'
      skippedDuplicates := st.skippedDuplicates + 1 }
  | (.reach team path, seen', sub') =>
    if st.fs.any (fun e => e.1 == path) then
      { st with
        seen := seen'
        subdirs := sub'
        skippedExisting := st.skippedExisting + 1 }
    else
      { st with
        seen := seen'
        subdirs := sub'
        fs := (path, team) :: st.fs
        saved := st.saved + 1 }

/-- One sheet of the orchestrator loop (scrape_teams.py:351-364): locate
the header row (`none` on the uncaught `StopIteration`), resolve the
column indices (`none` on the uncaught `ValueError`), and fold the row
body over the rows after the header. -/
def processSheet (env : ScrapeEnv) (regDir : Str) (st : ScrapeState)
    (rows : List (List Str)) : Option ScrapeState :=
  match findHeaderIdx rows with
  | none => none
  | some i =>
    match resolveCols (rows.getD i []) with
    | none => none
    | some cols => some ((rows.drop (i + 1)).foldl (processRow env cols regDir) st)

/-- The sheet loop of `scrape_regulation`. -/
def scrapeSheets (env : ScrapeEnv) (regDir : Str) :
    List (List (List Str)) → ScrapeState → Option ScrapeState
  | [], st => some st
  | s :: rest, st =>
    match processSheet env regDir st s with
    | none => none
    | some st' => scrapeSheets env regDir rest st'

/-- The initial run state over a pre-existing filesystem. -/
def initState (fs0 : List (Str × Str)) : ScrapeState := ⟨[], [], fs0, 0, 0, 0, 0⟩

/-- Model of `scrape_regulation` (scrape_teams.py:330-425) over the abstract data
source: process every selected sheet in order, starting from empty ledger
and counters over the given filesystem.  `none` models an uncaught
exception (no summary printed); on `some`, the four printed summary counts
are the four counter fields and the on-disk output is the `fs` component
(directory creation is idempotent and carries no state of its own). -/
def scrape_regulation (env : ScrapeEnv) (regulation : Str)
    (fs0 : List (Str × Str)) : Option ScrapeState :=
  scrapeSheets env ("data/teams/reg".toList ++ regulation.map Char.toLower)
    env.sheets (initState fs0)

/-- The header row used by the concrete environments below. -/
def hdrRow : List Str :=
  ["Team ID", "Category", "EVs", "Pokepaste", "Tournament / Event", "Rank",
   "Date"].map String.toList

/-- A data source with two admissible rows for the same event and
placement, backed by two different pastes. -/
def envA : ScrapeEnv where
  sheets :=
    [[hdrRow,
      ["1", "In Person Event", "Yes", "https://pokepast.es/aaa",
       "Phoenix Regional", "1", "15 Jan 2024"].map String.toList,
      ["2", "In Person Event", "Yes", "https://pokepast.es/bbb",
       "Phoenix Regional", "1", "15 Jan 2024"].map String.toList]]
  http := fun u =>
    if u == "https://pokepast.es/aaa/raw".toList then
      "Pikachu\nAbility: Static\n".toList
    else "Eevee\nAbility: Run Away\n".toList
  parseOk := fun _ => true
  simEq1 := fun a b => a == b

/-- A data source whose first candidate team passes the duplicate check
(and is appended to the ledger) but is then rejected by the event-keyword
filter, and whose second candidate has the same team text. -/
def envB : ScrapeEnv where
  sheets :=
    [[hdrRow,
      ["1", "In Person Event", "Yes", "https://pokepast.es/aaa",
       "Local Cup", "1", "15 Jan 2024"].map String.toList,
      ["2", "In Person Event", "Yes", "https://pokepast.es/bbb",
       "Phoenix Regional", "1", "15 Jan 2024"].map String.toList]]
  http := fun _ => "Pikachu\nAbility: Static\n".toList
  parseOk := fun _ => true
  simEq1 := fun a b => a == b

/-- A data source with a single sheet that has no header row. -/
def envNoHeader : ScrapeEnv where
  sheets := [[["foo".toList, "bar".toList], ["x".toList]]]
  http := fun _ => []
  parseOk := fun _ => true
  simEq1 := fun _ _ => false

/-- A data source with one sheet holding only the header row. -/
def envC : ScrapeEnv where
  sheets := [[hdrRow]]
  http := fun _ => []
  parseOk := fun _ => true
  simEq1 := fun _ _ => false

/-- A sheet header without a `Date` column. -/
def headerNoDate : List Str :=
  ["Team ID", "Category", "EVs", "Pokepaste", "Tournament / Event",
   "Rank"].map String.toList

/-- Absence of adjacent underscores, the shape invariant of
`undCollapseAux` output. -/
def undAdj (a b : Char) : Prop := ¬(a = '_' ∧ b = '_')

/-- Does NFKD decomposition of the character contribute any ASCII
alphanumeric to the slug?  (`slugify` output is empty exactly when no
input character does.) -/
def charYieldsAlnum (c : Char) : Bool :=
  (nfkdChar c).any fun d => d.toNat < 128 && isSlugChar d.toLower

/-- The line list that `normalize_team_text` output splits back into:
 the blocks' lines separated by single blank lines. -/
def sepLines : List (List Str) → List Str
  | [] => []
  | [b] => b
  | b :: b2 :: t => b ++ [] :: sepLines (b2 :: t)

/-- At a successfully resolved index, the header cell is the searched
text. -/
theorem findIdxOf_getD (x : Str) (l : List Str) (i : Nat)
    (h : findIdxOf x l = some i) : l.getD i [] = x := by
  induction l generalizing i with
  | nil => simp [findIdxOf] at h
  | cons y t ih =>
    rw [findIdxOf] at h
    by_cases hy : (y == x) = true
    · rw [if_pos hy] at h
      cases h
      simpa using beq_iff_eq.mp hy
    · rw [if_neg hy] at h
      cases hi : findIdxOf x t with
      | none => rw [hi] at h; exact Option.noConfusion h
      | some j =>
        rw [hi] at h
        simp only [Option.map_some'] at h
        cases h
        simpa using ih j hi

/-- C2.  `parse_event_date` accepts the four-letter `Sept` abbreviation,
but the unconditional `replace("Sept", "Sep")` also corrupts the full
month name `September` to `Sepember`, so `"15 September 2024"` — a
well-formed `D Month YYYY` string with a full English month name, which
the `%d %B %Y` format is there to accept — parses to nothing instead of
15 September 2024, while every other full month name is accepted. -/
theorem C2_september_corrupted :
    parse_event_date "15 September 2024".toList = none ∧
    parse_event_date "15 Sept 2024".toList = some ⟨2024, 9, 15⟩ ∧
    parse_event_date "15 January 2024".toList = some ⟨2024, 1, 15⟩ := by
  refine ⟨by decide, by decide, by decide⟩

/-- C4 counterexample.  On a fetched sheet with no header row the
orchestrator does not recover by skipping: the defaultless `next(...)`
raises `StopIteration`, the run aborts and no summary counts are
printed (modelled by `none`). -/
theorem C4_counterexample :
    scrape_regulation envNoHeader "g".toList [] = none := by decide

/-- C4 amended.  Whenever any fetched sheet lacks a header row, the whole
run aborts with an uncaught exception instead of skipping the sheet, and
no summary counts are printed; only rows shorter than the needed columns
are recovered locally by skipping.  Stated over the sheet loop, for any
sheet list containing the header-less sheet. -/
theorem scrapeSheets_of_headerless (env : ScrapeEnv) (regDir : Str)
    (rows : List (List Str)) (h2 : findHeaderIdx rows = none) :
    ∀ (sheets : List (List (List Str))) (st : ScrapeState), rows ∈ sheets →
      scrapeSheets env regDir sheets st = none := by
  intro sheets
  induction sheets with
  | nil => intro st h1; cases h1
  | cons s rest ih =>
    intro st h1
    rcases List.mem_cons.mp h1 with hs | hs
    · subst hs
      simp only [scrapeSheets, processSheet, h2]
    · simp only [scrapeSheets]
      cases hps : processSheet env regDir st s with
      | none => rfl
      | some stN => exact ih stN hs

/-- C4 amended, restated.  The run result is `none` whenever some sheet
lacks a header row. -/
theorem C4_missing_header_aborts (env : ScrapeEnv) (regulation : Str)
    (fs0 : List (Str × Str)) (rows : List (List Str))
    (h1 : rows ∈ env.sheets) (h2 : findHeaderIdx rows = none) :
    scrape_regulation env regulation fs0 = none :=
  scrapeSheets_of_headerless env _ rows h2 env.sheets (initState fs0) h1

/-- Witness for C4: the amended theorem applied to the concrete
header-less data source. -/
theorem C4_missing_header_aborts_witness :
    scrape_regulation envNoHeader "g".toList [] = none :=
  C4_missing_header_aborts envNoHeader "g".toList []
    [["foo".toList, "bar".toList], ["x".toList]] (by decide) (by decide)

/-- C5 counterexample.  On a header without a `Date` column the date
column is resolved by relative position (`event_idx - 1`), not by header
text: here it lands on the `Pokepaste` column. -/
theorem C5_counterexample :
    resolveCols headerNoDate = some ⟨1, 2, 3, 4, 5, 3⟩ ∧
    headerNoDate.getD 3 [] = "Pokepaste".toList := by
  refine ⟨by decide, by decide⟩

/-- C5 amended.  The category, EVs, paste, event and rank columns are
always resolved by exact header text; the date column is resolved by
header text only when a `Date` header is present, and otherwise falls
back to the fixed relative position one left of the event column. -/
theorem C5_header_text_resolution (header : List Str) (cols : SheetCols)
    (h : resolveCols header = some cols) :
    header.getD cols.categoryIdx [] = "Category".toList ∧
    header.getD cols.evsIdx [] = "EVs".toList ∧
    header.getD cols.pokepasteIdx [] = "Pokepaste".toList ∧
    header.getD cols.eventIdx [] = "Tournament / Event".toList ∧
    header.getD cols.rankIdx [] = "Rank".toList ∧
    ((findIdxOf "Date".toList header = some cols.dateIdx ∧
        header.getD cols.dateIdx [] = "Date".toList) ∨
      (findIdxOf "Date".toList header = none ∧
        cols.dateIdx = cols.eventIdx - 1)) := by
  unfold resolveCols at h
  cases hc : findIdxOf "Category".toList header with
  | none => rw [hc] at h; exact Option.noConfusion h
  | some ci =>
  cases hv : findIdxOf "EVs".toList header with
  | none => rw [hc, hv] at h; exact Option.noConfusion h
  | some vi =>
  cases hp : findIdxOf "Pokepaste".toList header with
  | none => rw [hc, hv, hp] at h; exact Option.noConfusion h
  | some pk =>
  cases ht : findIdxOf "Tournament / Event".toList header with
  | none => rw [hc, hv, hp, ht] at h; exact Option.noConfusion h
  | some ti =>
  cases hr : findIdxOf "Rank".toList header with
  | none => rw [hc, hv, hp, ht, hr] at h; exact Option.noConfusion h
  | some ri =>
  rw [hc, hv, hp, ht, hr] at h
  simp only [Option.some_inj] at h
  subst h
  refine ⟨findIdxOf_getD _ _ _ hc, findIdxOf_getD _ _ _ hv,
    findIdxOf_getD _ _ _ hp, findIdxOf_getD _ _ _ ht,
    findIdxOf_getD _ _ _ hr, ?_⟩
  cases hd : findIdxOf "Date".toList header with
  | none => exact Or.inr ⟨rfl, by simp [hd]⟩
  | some di => exact Or.inl ⟨by simp [hd], findIdxOf_getD _ _ _ hd⟩

/-- Witness for C5: the amended theorem applied to the concrete
`Date`-carrying header of the test environments. -/
theorem C5_header_text_resolution_witness :
    hdrRow.getD 1 [] = "Category".toList ∧
    hdrRow.getD 2 [] = "EVs".toList ∧
    hdrRow.getD 3 [] = "Pokepaste".toList ∧
    hdrRow.getD 4 [] = "Tournament / Event".toList ∧
    hdrRow.getD 5 [] = "Rank".toList ∧
    ((findIdxOf "Date".toList hdrRow = some 6 ∧
        hdrRow.getD 6 [] = "Date".toList) ∨
      (findIdxOf "Date".toList hdrRow = none ∧ (6 : Nat) = 4 - 1)) :=
  C5_header_text_resolution hdrRow ⟨1, 2, 3, 4, 5, 6⟩ (by decide)

/-- C6.  The dedup key and the directory name are produced by two
source functions with literally identical bodies, so they are
extensionally (indeed definitionally) equal. -/
theorem C6_event_key_eq_event_dir_name (event_name date_str : Str) :
    event_key event_name date_str = event_dir_name event_name date_str := rfl

/-- C9.  A candidate that passes the duplicate check is appended to the
in-run ledger before the event-name and later filters run: in `envB` the
first candidate is rejected by the event-keyword filter and produces no
file, and the second candidate — equal to the first under the similarity
oracle — is nevertheless counted and skipped as a duplicate (no file is
ever written and the duplicate counter reads 1). -/
theorem C9_ledger_before_filters :
    (scrape_regulation envB "g".toList []).map
      (fun s => (s.saved, s.skippedDuplicates, s.fs)) = some (0, 1, []) := by
  decide

/-- C10.  `placement_to_filename` never returns an empty string (the empty
slug maps to `unknown_placement`), so the orchestrator's
`base_filename[0]` test never indexes into an empty string. -/
theorem C10_placement_filename_nonempty (placement : Str) :
    placement_to_filename placement ≠ [] := by
  have h : ∀ n : Str,
      (if n == "champion".toList || n == "winner".toList then "1st".toList
       else if n == "runner_up".toList then "2nd".toList
       else if n == [] then "unknown_placement".toList
       else n) ≠ ([] : Str) := by
    intro n
    split_ifs with h1 h2 h3
    · simp
    · simp
    · simp
    · simpa using h3
  exact h (slugify (pyStrip placement))

/-- C1 counterexample.  Over the unchanged data source `envA` — whose two
admissible rows resolve to the same event directory and placement
filename — the first run saves 1 file and skips 1 as already existing, so
the second run's already-existing count is 2, not the first run's saved
count 1. -/
theorem C1_counterexample :
    ((scrape_regulation envA "G".toList []).bind
        (fun r1 => scrape_regulation envA "G".toList r1.fs)).map
      ScrapeState.skippedExisting ≠
    (scrape_regulation envA "G".toList []).map ScrapeState.saved := by decide

/-- Every character of `slugSubAux` output is a slug character or an
underscore. -/
theorem slugSubAux_mem (c : Char) (s : Str) : ∀ b : Bool,
    c ∈ slugSubAux b s → isSlugChar c = true ∨ c = '_' := by
  induction s with
  | nil => intro b h; simp [slugSubAux] at h
  | cons d t ih =>
    intro b h
    rw [slugSubAux] at h
    by_cases hd : isSlugChar d = true
    · rw [if_pos hd] at h
      rcases List.mem_cons.mp h with rfl | h2
      · exact Or.inl hd
      · exact ih false h2
    · rw [if_neg hd] at h
      cases b with
      | true =>
        rw [if_pos rfl] at h
        exact ih true h
      | false =>
        rw [if_neg (by simp)] at h
        rcases List.mem_cons.mp h with rfl | h2
        · exact Or.inr rfl
        · exact ih true h2

/-- Lemma: `undCollapseAux` only deletes characters. -/
theorem undCollapseAux_mem (c : Char) (s : Str) : ∀ b : Bool,
    c ∈ undCollapseAux b s → c ∈ s := by
  induction s with
  | nil => intro b h; simp [undCollapseAux] at h
  | cons d t ih =>
    intro b h
    rw [undCollapseAux] at h
    by_cases hd : d = '_'
    · rw [if_pos hd] at h
      cases b with
      | true =>
        rw [if_pos rfl] at h
        exact List.mem_cons_of_mem d (ih true h)
      | false =>
        rw [if_neg (by simp)] at h
        rcases List.mem_cons.mp h with rfl | h2
        · subst hd; exact List.mem_cons_self _ _
        · exact List.mem_cons_of_mem d (ih true h2)
    · rw [if_neg hd] at h
      rcases List.mem_cons.mp h with rfl | h2
      · exact List.mem_cons_self _ _
      · exact List.mem_cons_of_mem d (ih false h2)

/-- After the collapsing pass has just emitted an underscore (flag true),
the next emitted character is never an underscore. -/
theorem undCollapseAux_headD (s : Str) :
    (undCollapseAux true s).headD 'a' ≠ '_' := by
  induction s with
  | nil => simp [undCollapseAux]
  | cons d t ih =>
    rw [undCollapseAux]
    by_cases hd : d = '_'
    · rw [if_pos hd, if_pos rfl]
      exact ih
    · rw [if_neg hd]
      simpa using hd

/-- Lemma: `undCollapseAux` output has no adjacent underscores. -/
theorem undCollapseAux_chain (s : Str) : ∀ b : Bool,
    (undCollapseAux b s).Chain' undAdj := by
  induction s with
  | nil => intro b; simp [undCollapseAux]
  | cons d t ih =>
    intro b
    rw [undCollapseAux]
    by_cases hd : d = '_'
    · rw [if_pos hd]
      cases b with
      | true => rw [if_pos rfl]; exact ih true
      | false =>
        rw [if_neg (by simp)]
        refine List.chain'_cons'.mpr ⟨?_, ih true⟩
        intro y hy
        have hh := undCollapseAux_headD t
        intro hcon
        rcases hcon with ⟨-, hy'⟩
        apply hh
        cases hz : undCollapseAux true t with
        | nil => rw [hz] at hy; simp at hy
        | cons z zs =>
          rw [hz] at hy
          simp only [List.head?_cons, Option.mem_def, Option.some_inj] at hy
          simp only [List.headD_cons]
          rw [hy, hy']
    · rw [if_neg hd]
      refine List.chain'_cons'.mpr ⟨?_, ih false⟩
      intro y hy
      exact fun hcon => hd hcon.1

/-- A string of slug characters and underscores with no adjacent
underscores is a fixed point of the run-collapsing substitution. -/
theorem slugSubAux_id (s : Str)
    (hmem : ∀ c ∈ s, isSlugChar c = true ∨ c = '_')
    (hch : s.Chain' undAdj) :
    slugSubAux false s = s ∧ (s.headD 'a' ≠ '_' → slugSubAux true s = s) := by
  induction s with
  | nil => exact ⟨rfl, fun _ => rfl⟩
  | cons d t ih =>
    have hmt : ∀ c ∈ t, isSlugChar c = true ∨ c = '_' :=
      fun c hc => hmem c (List.mem_cons_of_mem d hc)
    have hct : t.Chain' undAdj := hch.tail
    rcases hmem d (List.mem_cons_self d t) with hd | hd
    · have step : ∀ b : Bool, slugSubAux b (d :: t) = d :: slugSubAux false t := by
        intro b; rw [slugSubAux, if_pos hd]
      refine ⟨?_, fun _ => ?_⟩ <;>
        · rw [step, (ih hmt hct).1]
    · subst hd
      constructor
      · rw [slugSubAux, if_neg (by decide), if_neg (by simp)]
        have hht : t.headD 'a' ≠ '_' := by
          cases t with
          | nil => simp
          | cons e t2 =>
            have := List.chain'_cons.mp hch
            simp only [List.headD_cons]
            exact fun he => this.1 ⟨rfl, he⟩
        rw [((ih hmt hct).2) hht]
      · intro hcon
        simp at hcon

/-- A string with no adjacent underscores is a fixed point of the
underscore-collapsing substitution. -/
theorem undCollapseAux_id (s : Str) (hch : s.Chain' undAdj) :
    undCollapseAux false s = s ∧
      (s.headD 'a' ≠ '_' → undCollapseAux true s = s) := by
  induction s with
  | nil => exact ⟨rfl, fun _ => rfl⟩
  | cons d t ih =>
    have hct : t.Chain' undAdj := hch.tail
    by_cases hd : d = '_'
    · subst hd
      constructor
      · rw [undCollapseAux, if_pos rfl, if_neg (by simp)]
        have hht : t.headD 'a' ≠ '_' := by
          cases t with
          | nil => simp
          | cons e t2 =>
            have := List.chain'_cons.mp hch
            simp only [List.headD_cons]
            exact fun he => this.1 ⟨rfl, he⟩
        rw [((ih hct).2) hht]
      · intro hcon
        simp at hcon
    · have step : ∀ b : Bool, undCollapseAux b (d :: t) = d :: undCollapseAux false t := by
        intro b; rw [undCollapseAux, if_neg hd]
      refine ⟨?_, fun _ => ?_⟩ <;>
        · rw [step, (ih hct).1]

/-- Lemma: `stripUnd` written with Mathlib's right-dropping combinator. -/
theorem stripUnd_eq (s : Str) :
    stripUnd s = List.rdropWhile (· = '_') (List.dropWhile (· = '_') s) := rfl

/-- Lemma: `stripUnd` only deletes characters. -/
theorem stripUnd_mem (c : Char) (s : Str) (h : c ∈ stripUnd s) : c ∈ s := by
  rw [stripUnd_eq] at h
  exact (List.dropWhile_suffix _).subset ((List.rdropWhile_prefix _ _).subset h)

/-- Lemma: `stripUnd` preserves adjacent-underscore freedom. -/
theorem stripUnd_chain (s : Str) (h : s.Chain' undAdj) :
    (stripUnd s).Chain' undAdj := by
  rw [stripUnd_eq]
  exact List.Chain'.prefix (h.suffix (List.dropWhile_suffix _))
    (List.rdropWhile_prefix _ _)

/-- Lemma: `stripUnd` output never starts with an underscore, so the leading
`dropWhile` fixes it. -/
theorem dropWhile_und_stripUnd (u : Str) :
    List.dropWhile (· = '_') (stripUnd u) = stripUnd u := by
  rw [stripUnd_eq]
  rcases hy : List.rdropWhile (· = '_') (List.dropWhile (· = '_') u) with _ | ⟨c, t⟩
  · rfl
  · have hpre := List.rdropWhile_prefix (· = '_') (List.dropWhile (· = '_') u)
    rw [hy] at hpre
    obtain ⟨r, hr⟩ := hpre
    have hh := List.head?_dropWhile_not (fun x => decide (x = '_')) u
    rw [← hr] at hh
    simp only [List.cons_append, List.head?_cons] at hh
    rw [List.dropWhile_cons_of_neg]
    simpa using hh

/-- Lemma: `stripUnd` output never ends with an underscore, so the trailing
`rdropWhile` fixes it. -/
theorem rdropWhile_und_stripUnd (u : Str) :
    List.rdropWhile (· = '_') (stripUnd u) = stripUnd u := by
  rw [stripUnd_eq]
  exact List.rdropWhile_idempotent _ _

/-- A fixed point of both boundary-dropping passes is a `stripUnd` fixed
point. -/
theorem stripUnd_id (s : Str)
    (h1 : List.dropWhile (· = '_') s = s)
    (h2 : List.rdropWhile (· = '_') s = s) : stripUnd s = s := by
  rw [stripUnd_eq, h1, h2]

/-- Lemma: `nfkdChar` fixes slug characters and the underscore. -/
theorem nfkdChar_fix (c : Char) (h : isSlugChar c = true ∨ c = '_') :
    nfkdChar c = [c] := by
  have h1 : c ≠ '™' := by
    rintro rfl
    rcases h with h | h
    · exact absurd h (by decide)
    · exact absurd h (by decide)
  have h2 : c ≠ 'é' := by
    rintro rfl
    rcases h with h | h
    · exact absurd h (by decide)
    · exact absurd h (by decide)
  have h3 : c ≠ '½' := by
    rintro rfl
    rcases h with h | h
    · exact absurd h (by decide)
    · exact absurd h (by decide)
  simp [nfkdChar, h1, h2, h3]

/-- Slug characters and the underscore are ASCII. -/
theorem slugOrUnd_lt128 (c : Char) (h : isSlugChar c = true ∨ c = '_') :
    c.toNat < 128 := by
  rcases h with h | rfl
  · simp only [isSlugChar, Bool.or_eq_true, Bool.and_eq_true,
      decide_eq_true_eq] at h
    rcases h with ⟨-, hz⟩ | ⟨-, h9⟩
    · have h' : c.toNat ≤ ('z' : Char).toNat := hz
      have he : ('z' : Char).toNat = 122 := by decide
      omega
    · have h' : c.toNat ≤ ('9' : Char).toNat := h9
      have he : ('9' : Char).toNat = 57 := by decide
      omega
  · decide

/-- Lemma: `Char.toLower` fixes slug characters and the underscore. -/
theorem toLower_fix (c : Char) (h : isSlugChar c = true ∨ c = '_') :
    c.toLower = c := by
  rcases h with h | rfl
  · simp only [isSlugChar, Bool.or_eq_true, Bool.and_eq_true,
      decide_eq_true_eq] at h
    unfold Char.toLower
    rw [if_neg]
    rintro ⟨h1, h2⟩
    rcases h with ⟨ha, -⟩ | ⟨-, h9⟩
    · have h' : ('a' : Char).toNat ≤ c.toNat := ha
      have he : ('a' : Char).toNat = 97 := by decide
      omega
    · have h' : c.toNat ≤ ('9' : Char).toNat := h9
      have he : ('9' : Char).toNat = 57 := by decide
      omega
  · decide

/-- Lemma: `flatMap` over a characterwise-fixed function is the identity. -/
theorem flatMap_nfkd_fix (l : Str) (h : ∀ c ∈ l, nfkdChar c = [c]) :
    l.flatMap nfkdChar = l := by
  induction l with
  | nil => rfl
  | cons d t ih =>
    rw [List.flatMap_cons, h d (List.mem_cons_self d t),
      ih fun c hc => h c (List.mem_cons_of_mem d hc)]
    rfl

/-- Lemma: `slugify` with its intermediate `let`s flattened. -/
theorem slugify_def (x : Str) : slugify x =
    stripUnd (undCollapseAux false (slugSubAux false
      ((asciiIgnore (x.flatMap nfkdChar)).map Char.toLower))) := rfl

/-- Membership in the ASCII-ignoring encode. -/
theorem mem_asciiIgnore (c : Char) (s : Str) :
    c ∈ asciiIgnore s ↔ c ∈ s ∧ c.toNat < 128 := by
  simp [asciiIgnore]

/-- The slug-output invariant of one `slugify` pass: every character is a
slug character or underscore, no two underscores are adjacent, and the
boundary-dropping passes fix it. -/
theorem slugify_invariant (x : Str) :
    (∀ c ∈ slugify x, isSlugChar c = true ∨ c = '_') ∧
      (slugify x).Chain' undAdj ∧
      List.dropWhile (· = '_') (slugify x) = slugify x ∧
      List.rdropWhile (· = '_') (slugify x) = slugify x := by
  rw [slugify_def]
  refine ⟨?_, ?_, dropWhile_und_stripUnd _, rdropWhile_und_stripUnd _⟩
  · intro c hc
    exact slugSubAux_mem c _ false
      (undCollapseAux_mem c _ false (stripUnd_mem c _ hc))
  · exact stripUnd_chain _ (undCollapseAux_chain _ false)

/-- C7, first conjunct: `slugify` is idempotent. -/
theorem slugify_idem (x : Str) : slugify (slugify x) = slugify x := by
  obtain ⟨hmem, hch, hq1, hq2⟩ := slugify_invariant x
  have h1 : (slugify x).flatMap nfkdChar = slugify x :=
    flatMap_nfkd_fix _ fun c hc => nfkdChar_fix c (hmem c hc)
  have h2 : asciiIgnore (slugify x) = slugify x :=
    List.filter_eq_self.mpr fun c hc => by
      simpa using slugOrUnd_lt128 c (hmem c hc)
  have h3 : (slugify x).map Char.toLower = slugify x := by
    have : ∀ c ∈ slugify x, Char.toLower c = c := fun c hc => toLower_fix c (hmem c hc)
    calc (slugify x).map Char.toLower = (slugify x).map id := List.map_congr_left this
    _ = slugify x := List.map_id _
  have h4 : slugSubAux false (slugify x) = slugify x :=
    (slugSubAux_id _ hmem hch).1
  have h5 : undCollapseAux false (slugify x) = slugify x :=
    (undCollapseAux_id _ hch).1
  conv_lhs => rw [slugify_def]
  rw [h1, h2, h3, h4, h5]
  exact stripUnd_id _ hq1 hq2

/-- With the just-emitted-underscore flag set, an all-non-slug suffix
produces nothing. -/
theorem slugSubAux_true_nonslug (s : Str)
    (h : ∀ c ∈ s, isSlugChar c = false) : slugSubAux true s = [] := by
  induction s with
  | nil => rfl
  | cons d t ih =>
    rw [slugSubAux, if_neg (by simp [h d (List.mem_cons_self d t)]), if_pos rfl]
    exact ih fun c hc => h c (List.mem_cons_of_mem d hc)

/-- Slug characters survive the run-collapsing substitution. -/
theorem slugSubAux_mem_slug (c : Char) (hc : isSlugChar c = true) (s : Str) :
    ∀ b : Bool, c ∈ s → c ∈ slugSubAux b s := by
  induction s with
  | nil => intro b h; cases h
  | cons d t ih =>
    intro b h
    rw [slugSubAux]
    by_cases hd : isSlugChar d = true
    · rw [if_pos hd]
      rcases List.mem_cons.mp h with rfl | h2
      · exact List.mem_cons_self _ _
      · exact List.mem_cons_of_mem d (ih false h2)
    · have hcd : c ≠ d := fun he => hd (he ▸ hc)
      have h2 : c ∈ t := by
        rcases List.mem_cons.mp h with rfl | h2
        · exact absurd rfl hcd
        · exact h2
      rw [if_neg hd]
      cases b with
      | true => rw [if_pos rfl]; exact ih true h2
      | false =>
        rw [if_neg (by simp)]
        exact List.mem_cons_of_mem _ (ih true h2)

/-- Non-underscore characters survive the underscore collapse. -/
theorem undCollapseAux_mem_ne (c : Char) (hc : c ≠ '_') (s : Str) :
    ∀ b : Bool, c ∈ s → c ∈ undCollapseAux b s := by
  induction s with
  | nil => intro b h; cases h
  | cons d t ih =>
    intro b h
    rw [undCollapseAux]
    by_cases hd : d = '_'
    · have h2 : c ∈ t := by
        rcases List.mem_cons.mp h with rfl | h2
        · exact absurd hd hc
        · exact h2
      rw [if_pos hd]
      cases b with
      | true => rw [if_pos rfl]; exact ih true h2
      | false =>
        rw [if_neg (by simp)]
        exact List.mem_cons_of_mem _ (ih true h2)
    · rw [if_neg hd]
      rcases List.mem_cons.mp h with rfl | h2
      · exact List.mem_cons_self _ _
      · exact List.mem_cons_of_mem d (ih false h2)

/-- Non-underscore characters survive a `dropWhile` on underscores. -/
theorem dropWhile_und_mem_ne (c : Char) (hc : c ≠ '_') (s : Str)
    (h : c ∈ s) : c ∈ List.dropWhile (· = '_') s := by
  induction s with
  | nil => cases h
  | cons d t ih =>
    by_cases hd : d = '_'
    · have h2 : c ∈ t := by
        rcases List.mem_cons.mp h with rfl | h2
        · exact absurd hd hc
        · exact h2
      rw [List.dropWhile_cons_of_pos (by simpa using hd)]
      exact ih h2
    · rw [List.dropWhile_cons_of_neg (by simpa using hd)]
      exact h

/-- Non-underscore characters survive `stripUnd`. -/
theorem stripUnd_mem_ne (c : Char) (hc : c ≠ '_') (s : Str) (h : c ∈ s) :
    c ∈ stripUnd s := by
  rw [stripUnd_eq, List.rdropWhile]
  rw [List.mem_reverse]
  exact dropWhile_und_mem_ne c hc _ (by
    rw [List.mem_reverse]
    exact dropWhile_und_mem_ne c hc _ h)

/-- C7, second conjunct: `slugify` returns the empty string exactly when
no character of the input NFKD-decomposes to an ASCII alphanumeric. -/
theorem slugify_eq_nil_iff (x : Str) :
    slugify x = [] ↔ x.all (fun c => !charYieldsAlnum c) = true := by
  rw [slugify_def]
  constructor
  · intro h
    rw [List.all_eq_true]
    intro c hc
    simp only [Bool.not_eq_true', charYieldsAlnum, List.any_eq_false]
    intro d hd
    simp only [Bool.and_eq_true, decide_eq_true_eq, not_and, Bool.not_eq_true]
    intro hlt
    by_contra hne
    have hslug : isSlugChar d.toLower = true := by simpa using hne
    have hmem3 : d.toLower ∈ (asciiIgnore (x.flatMap nfkdChar)).map Char.toLower :=
      List.mem_map.mpr
        ⟨d, (mem_asciiIgnore d _).mpr ⟨List.mem_flatMap.mpr ⟨c, hc, hd⟩, hlt⟩, rfl⟩
    have hslug2 : d.toLower ≠ '_' := fun he => absurd (he ▸ hslug) (by decide)
    have hmem4 := stripUnd_mem_ne _ hslug2 _ (undCollapseAux_mem_ne _ hslug2 _ false
      (slugSubAux_mem_slug _ hslug _ false hmem3))
    rw [h] at hmem4
    cases hmem4
  · intro h
    have hall : ∀ d ∈ (asciiIgnore (x.flatMap nfkdChar)).map Char.toLower,
        isSlugChar d = false := by
      intro d hd
      rcases List.mem_map.mp hd with ⟨e, he, rfl⟩
      rcases (mem_asciiIgnore e _).mp he with ⟨he2, hlt⟩
      rcases List.mem_flatMap.mp he2 with ⟨c, hcx, hce⟩
      have h3 := (List.all_eq_true.mp h) c hcx
      simp only [Bool.not_eq_true', charYieldsAlnum, List.any_eq_false] at h3
      have h4 := h3 e hce
      simp only [Bool.and_eq_true, decide_eq_true_eq, not_and,
        Bool.not_eq_true] at h4
      exact h4 hlt
    cases hs : (asciiIgnore (x.flatMap nfkdChar)).map Char.toLower with
    | nil => rfl
    | cons d t =>
      rw [slugSubAux,
        if_neg (by simp [hall d (by rw [hs]; exact List.mem_cons_self d t)]),
        if_neg (by simp)]
      rw [slugSubAux_true_nonslug t fun c hc =>
        hall c (by rw [hs]; exact List.mem_cons_of_mem d hc)]
      rfl

/-- C7 counterexample.  The trade-mark sign is not an alphanumeric
character, yet `slugify` maps it to `tm` (its NFKD compatibility
decomposition is `TM`), so an all-symbol input need not slugify to the
empty string. -/
theorem C7_counterexample :
    "™".toList.all (fun c => !c.isAlphanum) = true ∧
      slugify "™".toList = "tm".toList :=
  ⟨by decide, by decide⟩

/-- C7 amended.  `slugify` is total and idempotent on every string, and it
returns the empty string exactly when no character of the input
NFKD-decomposes to an ASCII alphanumeric — in particular on the empty
string and on every all-ASCII-symbol string, though not on symbols with
alphanumeric compatibility decompositions such as the trade-mark sign. -/
theorem C7_slugify_idempotent_total (x : Str) :
    slugify (slugify x) = slugify x ∧
      (slugify x = [] ↔ x.all (fun c => !charYieldsAlnum c) = true) :=
  ⟨slugify_idem x, slugify_eq_nil_iff x⟩

/-- Fixed points of a reversed `dropWhile`: lists not ending in a
`p`-character. -/
theorem rev_dropWhile_fix {α : Type} (p : α → Bool) (d : α) (L : List α)
    (h : p (L.getLastD d) = false) :
    (L.reverse.dropWhile p).reverse = L := by
  cases hr : L.reverse with
  | nil =>
    have hL : L = [] := by simpa using congrArg List.reverse hr
    subst hL; rfl
  | cons c t =>
    have hL : L = (c :: t).reverse := by simpa using congrArg List.reverse hr
    have hc : L.getLastD d = c := by
      rw [hL]
      simp
    rw [List.dropWhile_cons_of_neg]
    · rw [← hr, List.reverse_reverse]
    · rw [hc] at h; simp [h]

/-- Lemma: `pyRstrip` is idempotent. -/
theorem pyRstrip_idem (s : Str) : pyRstrip (pyRstrip s) = pyRstrip s := by
  unfold pyRstrip
  rw [List.reverse_reverse, List.dropWhile_idempotent]

/-- A string not ending in whitespace is a `pyRstrip` fixed point. -/
theorem pyRstrip_fix (s : Str) (h : pyWs (s.getLastD 'x') = false) :
    pyRstrip s = s :=
  rev_dropWhile_fix pyWs 'x' s h

/-- Lemma: `pyRstrip` only deletes characters. -/
theorem pyRstrip_mem (c : Char) (s : Str) (h : c ∈ pyRstrip s) : c ∈ s := by
  unfold pyRstrip at h
  rw [List.mem_reverse] at h
  exact List.mem_reverse.mp ((List.dropWhile_suffix _).subset h)

/-- Lemma: `splitOnCh` always produces at least one piece. -/
theorem splitOnCh_ne_nil (sep : Char) (s : Str) : splitOnCh sep s ≠ [] := by
  cases s with
  | nil => simp [splitOnCh]
  | cons c rest =>
    rw [splitOnCh]
    by_cases hc : c = sep <;> simp [hc]

/-- Characters of `splitOnCh` pieces come from the input and are never the
separator. -/
theorem splitOnCh_mem (sep : Char) (s : Str) :
    ∀ l ∈ splitOnCh sep s, ∀ c ∈ l, c ∈ s ∧ c ≠ sep := by
  induction s with
  | nil =>
    intro l hl c hc
    simp only [splitOnCh, List.mem_singleton] at hl
    subst hl; cases hc
  | cons d rest ih =>
    intro l hl c hc
    rw [splitOnCh] at hl
    by_cases hd : d = sep
    · rw [if_pos hd] at hl
      rcases List.mem_cons.mp hl with rfl | hl2
      · cases hc
      · have := ih l hl2 c hc
        exact ⟨List.mem_cons_of_mem d this.1, this.2⟩
    · rw [if_neg hd] at hl
      rcases List.mem_cons.mp hl with rfl | hl2
      · rcases List.mem_cons.mp hc with rfl | hc2
        · exact ⟨List.mem_cons_self _ _, hd⟩
        · cases hh : splitOnCh sep rest with
          | nil => exact absurd hh (splitOnCh_ne_nil sep rest)
          | cons p ps =>
            have : c ∈ p := by rw [hh] at hc2; simpa using hc2
            have := ih p (by rw [hh]; exact List.mem_cons_self _ _) c this
            exact ⟨List.mem_cons_of_mem d this.1, this.2⟩
      · have hmem : l ∈ splitOnCh sep rest := by
          cases hh : splitOnCh sep rest with
          | nil => exact absurd hh (splitOnCh_ne_nil sep rest)
          | cons p ps =>
            rw [hh] at hl2
            exact List.mem_cons_of_mem p hl2
        have := ih l hmem c hc
        exact ⟨List.mem_cons_of_mem d this.1, this.2⟩

/-- A separator-free string is a single `splitOnCh` piece. -/
theorem splitOnCh_nosep (sep : Char) (s : Str) (h : ∀ c ∈ s, c ≠ sep) :
    splitOnCh sep s = [s] := by
  induction s with
  | nil => rfl
  | cons c rest ih =>
    rw [splitOnCh, if_neg (h c (List.mem_cons_self _ _)),
      ih fun d hd => h d (List.mem_cons_of_mem c hd)]
    rfl

/-- Splitting after a separator-free prefix and an explicit separator. -/
theorem splitOnCh_append (sep : Char) (x r : Str) (h : ∀ c ∈ x, c ≠ sep) :
    splitOnCh sep (x ++ sep :: r) = x :: splitOnCh sep r := by
  induction x with
  | nil =>
    rw [List.nil_append, splitOnCh, if_pos rfl]
  | cons c x2 ih =>
    rw [List.cons_append, splitOnCh,
      if_neg (h c (List.mem_cons_self _ _)),
      ih fun d hd => h d (List.mem_cons_of_mem c hd)]
    rfl

/-- Splitting a string joined from separator-free pieces recovers the
pieces. -/
theorem splitOnCh_joinWith (sep : Char) (ls : List Str) (hne : ls ≠ [])
    (h : ∀ l ∈ ls, ∀ c ∈ l, c ≠ sep) :
    splitOnCh sep (joinWith [sep] ls) = ls := by
  induction ls with
  | nil => exact absurd rfl hne
  | cons x t ih =>
    cases t with
    | nil =>
      rw [joinWith]
      exact splitOnCh_nosep sep x (h x (List.mem_cons_self _ _))
    | cons y t2 =>
      have : joinWith [sep] (x :: y :: t2) = x ++ sep :: joinWith [sep] (y :: t2) := by
        rw [joinWith]; simp
      rw [this, splitOnCh_append sep x _ (h x (List.mem_cons_self _ _)),
        ih (by simp) fun l hl => h l (List.mem_cons_of_mem x hl)]

/-- Lemma: joining the `splitOnCh` pieces with the separator recovers the
split string. -/
theorem joinWith_splitOnCh (sep : Char) (s : Str) :
    joinWith [sep] (splitOnCh sep s) = s := by
  induction s with
  | nil => rfl
  | cons c rest ih =>
    rw [splitOnCh]
    by_cases hc : c = sep
    · rw [if_pos hc]
      cases hh : splitOnCh sep rest with
      | nil => exact absurd hh (splitOnCh_ne_nil sep rest)
      | cons p ps =>
        rw [hh] at ih
        simp only [joinWith]
        simp [ih, hc]
    · rw [if_neg hc]
      cases hh : splitOnCh sep rest with
      | nil => exact absurd hh (splitOnCh_ne_nil sep rest)
      | cons p ps =>
        rw [hh] at ih
        simp only [List.headD_cons, List.tail_cons]
        cases ps with
        | nil =>
          simp only [joinWith] at ih ⊢
          rw [ih]
        | cons q t2 =>
          simp only [joinWith] at ih ⊢
          rw [← ih]
          simp

/-- Lemma: an element of a joined list occurs in the join, preceded by
nothing or by a chunk ending in the separator, and followed by nothing
or by a chunk starting with the separator. -/
theorem joinWith_mem_decomp (sep : Char) (L : List Str) (l : Str)
    (hl : l ∈ L) :
    ∃ pre post, joinWith [sep] L = pre ++ l ++ post ∧
      (pre = [] ∨ ∃ p, pre = p ++ [sep]) ∧
      (post = [] ∨ ∃ r, post = sep :: r) := by
  induction L with
  | nil => cases hl
  | cons x t ih =>
    rcases List.mem_cons.mp hl with rfl | hlt
    · cases t with
      | nil => exact ⟨[], [], by simp [joinWith], Or.inl rfl, Or.inl rfl⟩
      | cons y t2 =>
        refine ⟨[], sep :: joinWith [sep] (y :: t2), ?_, Or.inl rfl,
          Or.inr ⟨joinWith [sep] (y :: t2), rfl⟩⟩
        simp [joinWith]
    · cases t with
      | nil => cases hlt
      | cons y t2 =>
        obtain ⟨pre, post, heq, hpre, hpost⟩ := ih hlt
        refine ⟨x ++ sep :: pre, post, ?_, ?_, hpost⟩
        · simp only [joinWith]
          rw [heq]
          simp
        · rcases hpre with rfl | ⟨p, rfl⟩
          · exact Or.inr ⟨x, by simp⟩
          · exact Or.inr ⟨x ++ sep :: p, by simp⟩

/-- Lemma: a `splitOnCh` piece occurs in the string, starting at the
string start or right after a separator, and ending at the string end or
right before a separator. -/
theorem splitOnCh_mem_decomp (sep : Char) (s l : Str)
    (hl : l ∈ splitOnCh sep s) :
    ∃ pre post, s = pre ++ l ++ post ∧
      (pre = [] ∨ ∃ p, pre = p ++ [sep]) ∧
      (post = [] ∨ ∃ r, post = sep :: r) := by
  obtain ⟨pre, post, heq, hpre, hpost⟩ :=
    joinWith_mem_decomp sep (splitOnCh sep s) l hl
  exact ⟨pre, post, by rw [← joinWith_splitOnCh sep s, heq], hpre, hpost⟩

/-- Lemma: a successful case-insensitive literal match needs at least
the literal's length. -/
theorem takeIsCI_le_length (pat s : Str) (h : takeIsCI pat s = true) :
    pat.length ≤ s.length := by
  unfold takeIsCI at h
  have h2 : (s.take pat.length).map Char.toLower = pat := eq_of_beq h
  have h3 := congrArg List.length h2
  simp only [List.length_map, List.length_take] at h3
  omega

/-- Lemma: a case-insensitive literal match survives appending on the
right. -/
theorem takeIsCI_append_right (pat s y : Str) (h : takeIsCI pat s = true) :
    takeIsCI pat (s ++ y) = true := by
  have hle := takeIsCI_le_length pat s h
  unfold takeIsCI at h ⊢
  rw [List.take_append_of_le_length hle]
  exact h

/-- Lemma: dropping leading whitespace commutes with a right append when
the left part holds a non-whitespace character. -/
theorem dropWhile_ws_append (s y : Str) (hne : s.dropWhile pyWs ≠ []) :
    (s ++ y).dropWhile pyWs = s.dropWhile pyWs ++ y := by
  cases hd : s.dropWhile pyWs with
  | nil => exact absurd hd hne
  | cons a as =>
    rw [List.dropWhile_append, hd]
    simp

/-- Lemma: after the ability name, a remainder made of whitespace and
then nothing or a newline-led rest satisfies the trailing `\s*$` test. -/
theorem endOk_of_ws (w3 post : Str) (hw3 : ∀ c ∈ w3, pyWs c = true)
    (hpost : post = [] ∨ ∃ r, post = '\n' :: r) :
    (((w3 ++ post).takeWhile pyWs).any (· == '\n')
      || ((w3 ++ post).dropWhile pyWs).isEmpty) = true := by
  rcases hpost with rfl | ⟨r2, rfl⟩
  · rw [List.append_nil, List.dropWhile_eq_nil_iff.mpr hw3]
    simp
  · rw [List.takeWhile_append_of_pos hw3,
      List.takeWhile_cons_of_pos (by decide : pyWs '\n' = true)]
    refine Bool.or_eq_true_iff.mpr (Or.inl ?_)
    refine List.any_eq_true.mpr ⟨'\n', ?_, by decide⟩
    simp

/-- Lemma: a whole line matching the single-line ability pattern yields
a match of the anchored pattern at that line's start, whatever follows
the line boundary. -/
theorem abilityFrom_of_line (abil line post : Str) (habil : abil ≠ [])
    (h2 : abilityExactLine abil line = true)
    (hpost : post = [] ∨ ∃ r, post = '\n' :: r) :
    abilityFrom abil (line ++ post) = true := by
  simp only [abilityExactLine, Bool.and_eq_true] at h2
  obtain ⟨hlit, habl, hall⟩ := h2
  have hlen8 : ("ability:".toList).length = 8 := by decide
  have h8 : 8 ≤ (line.dropWhile pyWs).length := by
    rw [← hlen8]; exact takeIsCI_le_length _ _ hlit
  have hrne : line.dropWhile pyWs ≠ [] := by
    intro hnil
    rw [hnil, List.length_nil] at h8
    omega
  have hlen2 : abil.length ≤
      (((line.dropWhile pyWs).drop 8).dropWhile pyWs).length :=
    takeIsCI_le_length _ _ habl
  have hr2ne : ((line.dropWhile pyWs).drop 8).dropWhile pyWs ≠ [] := by
    intro hnil
    rw [hnil, List.length_nil, Nat.le_zero, List.length_eq_zero] at hlen2
    exact habil hlen2
  have hw3 : ∀ c ∈ (((line.dropWhile pyWs).drop 8).dropWhile pyWs).drop
      abil.length, pyWs c = true := fun c hc => List.all_eq_true.mp hall c hc
  have e1 : (line ++ post).dropWhile pyWs = line.dropWhile pyWs ++ post :=
    dropWhile_ws_append line post hrne
  have e2 : takeIsCI "ability:".toList (line.dropWhile pyWs ++ post) = true :=
    takeIsCI_append_right _ _ _ hlit
  have e3 : (line.dropWhile pyWs ++ post).drop 8
      = (line.dropWhile pyWs).drop 8 ++ post :=
    List.drop_append_of_le_length h8
  have e4 : ((line.dropWhile pyWs).drop 8 ++ post).dropWhile pyWs
      = ((line.dropWhile pyWs).drop 8).dropWhile pyWs ++ post :=
    dropWhile_ws_append _ post hr2ne
  have e5 : takeIsCI abil
      (((line.dropWhile pyWs).drop 8).dropWhile pyWs ++ post) = true :=
    takeIsCI_append_right _ _ _ habl
  have e6 : (((line.dropWhile pyWs).drop 8).dropWhile pyWs ++ post).drop
        abil.length
      = (((line.dropWhile pyWs).drop 8).dropWhile pyWs).drop abil.length
        ++ post :=
    List.drop_append_of_le_length hlen2
  have e7 := endOk_of_ws _ post hw3 hpost
  simp only [abilityFrom]
  rw [e1, e3, e4, e6, e2, e5, e7]
  rfl

/-- Lemma: a match anchored at the current line start makes the walk
succeed. -/
theorem bannedWalk_of_here (abil s : Str) (h : abilityFrom abil s = true) :
    bannedWalk abil true s = true := by
  cases s with
  | nil =>
    simp [abilityFrom] at h
    exact absurd h.1 (by decide)
  | cons c t =>
    simp only [bannedWalk]
    rw [h]
    simp

/-- Lemma: the walk succeeds whenever it succeeds from the line start
after some newline. -/
theorem bannedWalk_of_after (abil p rest : Str) (b : Bool)
    (h : bannedWalk abil true rest = true) :
    bannedWalk abil b (p ++ '\n' :: rest) = true := by
  induction p generalizing b with
  | nil =>
    simp only [List.nil_append, bannedWalk]
    have hnl : ('\n' == '\n') = true := by decide
    rw [hnl, h]
    simp
  | cons c p2 ih =>
    simp only [List.cons_append, bannedWalk, List.append_eq]
    rw [ih]
    simp

/-- C3 counterexample.  A text containing the substring
`Ability: Illusion` inside a line with additional trailing content
passes `has_banned_move_or_ability`: the regex allows only whitespace
between the ability name and the next line boundary. -/
theorem C3_counterexample :
    strContains "Ability: Illusion".toList
        "Ability: Illusion magic\n".toList = true ∧
    has_banned_move_or_ability "Ability: Illusion magic\n".toList = false := by
  refine ⟨by decide, by decide⟩

/-- C3 amended.  Substring containment does not trigger the content
filter (see the counterexample); what holds is: whenever some `\n`-line
of the team text consists of whitespace, `Ability:` (case-insensitive),
whitespace, `Illusion` (case-insensitive) and trailing whitespace only,
the filter fires; and since `\s` also matches newlines, the anchored
pattern can span line boundaries through whitespace, so the two-line
text `"Ability:\nIllusion"` fires as well. -/
theorem C3_whole_line_illusion (t line : Str)
    (h1 : line ∈ splitOnCh '\n' t)
    (h2 : abilityExactLine "illusion".toList line = true) :
    has_banned_move_or_ability t = true ∧
    has_banned_move_or_ability "Ability:\nIllusion".toList = true := by
  refine ⟨?_, by decide⟩
  obtain ⟨pre, post, ht, hpre, hpost⟩ := splitOnCh_mem_decomp '\n' t line h1
  have hb : abilityFrom "illusion".toList (line ++ post) = true :=
    abilityFrom_of_line _ _ _ (by decide) h2 hpost
  have hwalk : bannedWalk "illusion".toList true t = true := by
    rcases hpre with rfl | ⟨p, rfl⟩
    · rw [ht, List.nil_append]
      exact bannedWalk_of_here _ _ hb
    · rw [ht]
      have hass : (p ++ ['\n']) ++ line ++ post
          = p ++ '\n' :: (line ++ post) := by simp
      rw [hass]
      exact bannedWalk_of_after _ _ _ _ (bannedWalk_of_here _ _ hb)
  unfold has_banned_move_or_ability
  rw [hwalk]
  simp

/-- Witness for C3: the amended theorem applied to a concrete team text
and line. -/
theorem C3_whole_line_illusion_witness :
    has_banned_move_or_ability "Zoroark\n  ability: ILLUSION  \n".toList
        = true ∧
    has_banned_move_or_ability "Ability:\nIllusion".toList = true :=
  C3_whole_line_illusion "Zoroark\n  ability: ILLUSION  \n".toList
    "  ability: ILLUSION  ".toList (by decide) (by decide)

/-- A carriage-return-free string is a `crToLf` fixed point. -/
theorem crToLf_of_no_cr (s : Str) (h : ∀ c ∈ s, c ≠ '\r') : crToLf s = s := by
  induction s with
  | nil => rfl
  | cons c rest ih =>
    have hc : c ≠ '\r' := h c (List.mem_cons_self _ _)
    have hr : crToLf rest = rest := ih fun d hd => h d (List.mem_cons_of_mem _ hd)
    rw [crToLf.eq_def]
    split
    · simp_all
    · simp_all
    · simp_all
    · rename_i heq
      rw [List.cons.injEq] at heq
      rw [← heq.1, ← heq.2, hr]

/-- Appending a final separator appends an empty piece. -/
theorem splitOnCh_concat_sep (sep : Char) (s : Str) :
    splitOnCh sep (s ++ [sep]) = splitOnCh sep s ++ [[]] := by
  induction s with
  | nil => simp [splitOnCh]
  | cons c rest ih =>
    rw [List.cons_append, splitOnCh, splitOnCh, ih]
    by_cases hc : c = sep
    · simp [hc]
    · rw [if_neg hc, if_neg hc]
      cases hh : splitOnCh sep rest with
      | nil => exact absurd hh (splitOnCh_ne_nil sep rest)
      | cons p ps => simp

/-- Dropping the final empty piece created by a trailing separator. -/
theorem dropFinalEmpty_concat (L : List Str) :
    dropFinalEmpty (L ++ [[]]) = L := by
  simp [dropFinalEmpty]

/-- The default of `getLastD` is irrelevant on nonempty lists. -/
theorem getLastD_irrel {α : Type} (l : List α) (h : l ≠ []) (d1 d2 : α) :
    l.getLastD d1 = l.getLastD d2 := by
  cases hl : l.getLast? with
  | none => simp_all
  | some w => simp [hl]

/-- Lemma: `getLastD` of a nonempty list is a member. -/
theorem getLastD_mem {α : Type} (l : List α) (d : α) (h : l ≠ []) :
    l.getLastD d ∈ l := by
  induction l generalizing d with
  | nil => exact absurd rfl h
  | cons c t ih =>
    rw [List.getLastD_cons]
    cases t with
    | nil => simp
    | cons e t2 => exact List.mem_cons_of_mem c (ih c (by simp))

/-- Lemma: `getLastD` looks only at a nonempty right factor. -/
theorem getLastD_append_right {α : Type} (xs ys : List α) (d : α)
    (hy : ys ≠ []) : (xs ++ ys).getLastD d = ys.getLastD d := by
  cases hys : ys.getLast? with
  | none => simp_all
  | some w => simp [List.getLastD_eq_getLast?, List.getLast?_append, hys]

/-- Lemma: `sepLines` of nonempty blocks is nonempty. -/
theorem sepLines_ne_nil (bs : List (List Str)) (h0 : bs ≠ [])
    (hb : ∀ b ∈ bs, b ≠ []) : sepLines bs ≠ [] := by
  cases bs with
  | nil => exact absurd rfl h0
  | cons b t =>
    cases t with
    | nil => exact hb b (List.mem_cons_self _ _)
    | cons b2 t2 =>
      rw [sepLines]
      intro hcon
      exact hb b (List.mem_cons_self _ _) (List.append_eq_nil.mp hcon).1

/-- Lines of `sepLines` are blank separators or block lines. -/
theorem sepLines_mem (bs : List (List Str)) :
    ∀ l ∈ sepLines bs, l = [] ∨ ∃ b ∈ bs, l ∈ b := by
  induction bs with
  | nil => intro l hl; cases hl
  | cons b t ih =>
    cases t with
    | nil => intro l hl; exact Or.inr ⟨b, List.mem_cons_self _ _, hl⟩
    | cons b2 t2 =>
      intro l hl
      rw [sepLines] at hl
      rcases List.mem_append.mp hl with h | h
      · exact Or.inr ⟨b, List.mem_cons_self _ _, h⟩
      · rcases List.mem_cons.mp h with rfl | h2
        · exact Or.inl rfl
        · rcases ih l h2 with h3 | ⟨bb, hbb, hlb⟩
          · exact Or.inl h3
          · exact Or.inr ⟨bb, List.mem_cons_of_mem b hbb, hlb⟩

/-- The first line of `sepLines` is the first line of the first block. -/
theorem sepLines_headD (bs : List (List Str)) (hb : ∀ b ∈ bs, b ≠ [])
    (hl : ∀ b ∈ bs, ∀ l ∈ b, l ≠ []) :
    (sepLines bs).headD ['x'] ≠ [] := by
  cases bs with
  | nil => simp [sepLines]
  | cons b t =>
    have hbne : b ≠ [] := hb b (List.mem_cons_self _ _)
    cases t with
    | nil =>
      cases b with
      | nil => exact absurd rfl hbne
      | cons w ws =>
        simpa [sepLines] using hl _ (List.mem_cons_self _ _) w (List.mem_cons_self _ _)
    | cons b2 t2 =>
      rw [sepLines]
      cases b with
      | nil => exact absurd rfl hbne
      | cons w ws =>
        simpa using hl _ (List.mem_cons_self _ _) w (List.mem_cons_self _ _)

/-- The last line of `sepLines` is the last line of the last block. -/
theorem sepLines_getLastD (bs : List (List Str)) (hb : ∀ b ∈ bs, b ≠ [])
    (hl : ∀ b ∈ bs, ∀ l ∈ b, l ≠ []) :
    (sepLines bs).getLastD ['x'] ≠ [] := by
  induction bs with
  | nil => simp [sepLines]
  | cons b t ih =>
    cases t with
    | nil =>
      have := getLastD_mem b ['x'] (hb b (List.mem_cons_self _ _))
      exact hl b (List.mem_cons_self _ _) _ this
    | cons b2 t2 =>
      rw [sepLines]
      have hz : sepLines (b2 :: t2) ≠ [] :=
        sepLines_ne_nil _ (by simp) fun b3 h3 => hb b3 (List.mem_cons_of_mem b h3)
      rw [getLastD_append_right b _ ['x'] (by simp), List.getLastD_cons,
        getLastD_irrel _ hz [] ['x']]
      exact ih (fun b3 h3 => hb b3 (List.mem_cons_of_mem b h3))
        fun b3 h3 => hl b3 (List.mem_cons_of_mem b h3)

/-- Lemma: `joinWith` distributes over append of nonempty piece lists. -/
theorem joinWith_append (sep : Str) (xs ys : List Str) (hx : xs ≠ [])
    (hy : ys ≠ []) :
    joinWith sep (xs ++ ys) = joinWith sep xs ++ sep ++ joinWith sep ys := by
  induction xs with
  | nil => exact absurd rfl hx
  | cons x xs2 ih =>
    cases xs2 with
    | nil =>
      cases ys with
      | nil => exact absurd rfl hy
      | cons y t => simp [joinWith]
    | cons x2 xs3 =>
      have h1 : (x :: x2 :: xs3) ++ ys = x :: ((x2 :: xs3) ++ ys) := rfl
      have h2 : (x2 :: xs3) ++ ys = x2 :: (xs3 ++ ys) := rfl
      rw [h1, h2, joinWith, ← h2, ih (by simp), joinWith]
      simp [List.append_assoc]

/-- The double-newline join of rendered blocks is the single-newline join
of the separated line list. -/
theorem joinWith_sepLines (bs : List (List Str)) (hb : ∀ b ∈ bs, b ≠ []) :
    joinWith ['\n', '\n'] (bs.map (joinWith ['\n'])) =
      joinWith ['\n'] (sepLines bs) := by
  induction bs with
  | nil => rfl
  | cons b t ih =>
    cases t with
    | nil => rfl
    | cons b2 t2 =>
      have hz : sepLines (b2 :: t2) ≠ [] :=
        sepLines_ne_nil _ (by simp) fun b3 h3 => hb b3 (List.mem_cons_of_mem b h3)
      rw [List.map_cons, List.map_cons, joinWith, ← List.map_cons,
        ih fun b3 h3 => hb b3 (List.mem_cons_of_mem b h3), sepLines,
        joinWith_append ['\n'] b ([] :: sepLines (b2 :: t2))
          (hb b (List.mem_cons_self _ _)) (by simp)]
      cases hzz : sepLines (b2 :: t2) with
      | nil => exact absurd hzz hz
      | cons w ws =>
        rw [joinWith]
        simp [List.append_assoc]

/-- Running the block loop over a block's lines followed by a blank line
emits the accumulated block and continues fresh. -/
theorem blocksLoop_append_blank (rest : List Str) (b : List Str) :
    ∀ acc, (∀ l ∈ b, l ≠ []) → acc ++ b ≠ [] →
      blocksLoop (b ++ [] :: rest) acc = (acc ++ b) :: blocksLoop rest [] := by
  induction b with
  | nil =>
    intro acc hl hne
    rw [List.nil_append, blocksLoop, if_pos rfl, if_neg (by simpa using hne)]
    simp
  | cons l b2 ih =>
    intro acc hl hne
    rw [List.cons_append, blocksLoop, if_neg (hl l (List.mem_cons_self _ _)),
      ih (acc ++ [l]) (fun l2 h2 => hl l2 (List.mem_cons_of_mem l h2)) (by simp)]
    simp

/-- Running the block loop over a final block's lines emits it. -/
theorem blocksLoop_final (b : List Str) :
    ∀ acc, (∀ l ∈ b, l ≠ []) → acc ++ b ≠ [] →
      blocksLoop b acc = [acc ++ b] := by
  induction b with
  | nil =>
    intro acc hl hne
    rw [blocksLoop, if_neg (by simpa using hne)]
    simp
  | cons l b2 ih =>
    intro acc hl hne
    rw [blocksLoop, if_neg (hl l (List.mem_cons_self _ _)),
      ih (acc ++ [l]) (fun l2 h2 => hl l2 (List.mem_cons_of_mem l h2)) (by simp)]
    simp

/-- The block loop inverts `sepLines`. -/
theorem blocksLoop_sepLines (bs : List (List Str)) (hb : ∀ b ∈ bs, b ≠ [])
    (hl : ∀ b ∈ bs, ∀ l ∈ b, l ≠ []) :
    blocksLoop (sepLines bs) [] = bs := by
  induction bs with
  | nil => rfl
  | cons b t ih =>
    cases t with
    | nil =>
      have := blocksLoop_final b [] (hl b (List.mem_cons_self _ _))
        (by simpa using hb b (List.mem_cons_self _ _))
      simpa [sepLines] using this
    | cons b2 t2 =>
      rw [sepLines, blocksLoop_append_blank _ b [] (hl b (List.mem_cons_self _ _))
        (by simpa using hb b (List.mem_cons_self _ _)),
        ih (fun b3 h3 => hb b3 (List.mem_cons_of_mem b h3))
          fun b3 h3 => hl b3 (List.mem_cons_of_mem b h3)]
      simp

/-- Soundness of the block loop: blocks are nonempty and made of nonempty
input (or accumulator) lines. -/
theorem blocksLoop_blocks (lines : List Str) :
    ∀ acc, (∀ l ∈ acc, l ≠ []) →
      ∀ b ∈ blocksLoop lines acc, b ≠ [] ∧
        ∀ l ∈ b, l ≠ [] ∧ (l ∈ lines ∨ l ∈ acc) := by
  induction lines with
  | nil =>
    intro acc hacc b hb
    rw [blocksLoop] at hb
    by_cases ha : acc = []
    · rw [if_pos ha] at hb; cases hb
    · rw [if_neg ha] at hb
      rcases List.mem_singleton.mp hb with rfl
      exact ⟨ha, fun l hl => ⟨hacc l hl, Or.inr hl⟩⟩
  | cons x rest ih =>
    intro acc hacc b hb
    rw [blocksLoop] at hb
    by_cases hx : x = []
    · rw [if_pos hx] at hb
      by_cases ha : acc = []
      · rw [if_pos ha] at hb
        have := ih [] (by simp) b hb
        refine ⟨this.1, fun l hl => ⟨(this.2 l hl).1, ?_⟩⟩
        rcases (this.2 l hl).2 with h | h
        · exact Or.inl (List.mem_cons_of_mem x h)
        · cases h
      · rw [if_neg ha] at hb
        rcases List.mem_cons.mp hb with rfl | hb2
        · exact ⟨ha, fun l hl => ⟨hacc l hl, Or.inr hl⟩⟩
        · have := ih [] (by simp) b hb2
          refine ⟨this.1, fun l hl => ⟨(this.2 l hl).1, ?_⟩⟩
          rcases (this.2 l hl).2 with h | h
          · exact Or.inl (List.mem_cons_of_mem x h)
          · cases h
    · rw [if_neg hx] at hb
      have hacc2 : ∀ l ∈ acc ++ [x], l ≠ [] := by
        intro l hl
        rcases List.mem_append.mp hl with h | h
        · exact hacc l h
        · rcases List.mem_singleton.mp h with rfl; exact hx
      have := ih (acc ++ [x]) hacc2 b hb
      refine ⟨this.1, fun l hl => ⟨(this.2 l hl).1, ?_⟩⟩
      rcases (this.2 l hl).2 with h | h
      · exact Or.inl (List.mem_cons_of_mem x h)
      · rcases List.mem_append.mp h with h2 | h2
        · exact Or.inr h2
        · rcases List.mem_singleton.mp h2 with rfl
          exact Or.inl (List.mem_cons_self _ _)

/-- Decomposition of a successful ability-line match: the leading
whitespace, the literal as written, the post-colon whitespace and the
right-stripped value. -/
theorem matchAbilityLine_some (l g1 v : Str)
    (h : matchAbilityLine l = some (g1, v)) :
    takeIsCI "ability:".toList (l.dropWhile pyWs) = true ∧
      g1 = l.takeWhile pyWs ++ (l.dropWhile pyWs).take 8 ++
        ((l.dropWhile pyWs).drop 8).takeWhile pyWs ∧
      v = pyRstrip (((l.dropWhile pyWs).drop 8).dropWhile pyWs) := by
  simp only [matchAbilityLine] at h
  by_cases hc : takeIsCI "ability:".toList (l.dropWhile pyWs) = true
  · rw [if_pos hc] at h
    simp only [Option.some_inj, Prod.mk.injEq] at h
    exact ⟨hc, h.1.symm, h.2.symm⟩
  · rw [if_neg hc] at h; cases h

/-- A failed ability-line match, conversely. -/
theorem matchAbilityLine_none (l : Str)
    (h : takeIsCI "ability:".toList (l.dropWhile pyWs) = false) :
    matchAbilityLine l = none := by
  simp only [matchAbilityLine]
  rw [if_neg (by simpa using h)]

/-- Computing the ability-line match on a line assembled from whitespace,
an `Ability:` literal, whitespace and a value that starts and ends with a
non-whitespace character. -/
theorem matchAbilityLine_build (pre lit ws2 tail : Str)
    (hpre : ∀ c ∈ pre, pyWs c = true)
    (hlit : lit.map Char.toLower = "ability:".toList)
    (hws2 : ∀ c ∈ ws2, pyWs c = true)
    (htail : ∃ c cs, tail = c :: cs ∧ pyWs c = false)
    (hlast : pyWs (tail.getLastD 'x') = false) :
    matchAbilityLine (pre ++ lit ++ ws2 ++ tail) = some (pre ++ lit ++ ws2, tail) := by
  obtain ⟨ch, cs, rfl, hch⟩ := htail
  have hlen : lit.length = ("ability:".toList : Str).length := by
    simpa using congrArg List.length hlit
  have hlen8 : lit.length = 8 := by rw [hlen]; decide
  have hlitne : lit ≠ [] := by
    intro hcon; rw [hcon] at hlen8; simp at hlen8
  obtain ⟨d, ds, rfl⟩ : ∃ d ds, lit = d :: ds := by
    cases lit with
    | nil => exact absurd rfl hlitne
    | cons d ds => exact ⟨d, ds, rfl⟩
  have hd : pyWs d = false := by
    have hh := congrArg (fun s => s.headD 'x') hlit
    simp only [List.map_cons, List.headD_cons] at hh
    have hdl : d.toLower = 'a' := by simpa using hh
    by_contra hcon
    have hws : pyWs d = true := by simpa using hcon
    simp only [pyWs, Bool.or_eq_true, decide_eq_true_eq] at hws
    rcases hws with ((((h | h) | h) | h) | h) | h <;>
      (subst h; exact absurd hdl (by decide))
  have hshape : pre ++ (d :: ds) ++ ws2 ++ (ch :: cs) =
      pre ++ ((d :: ds) ++ (ws2 ++ (ch :: cs))) := by
    simp [List.append_assoc]
  simp only [matchAbilityLine]
  rw [hshape, List.takeWhile_append_of_pos hpre, List.dropWhile_append_of_pos hpre]
  have e1 : List.takeWhile pyWs ((d :: ds) ++ (ws2 ++ (ch :: cs))) = [] := by
    rw [List.cons_append, List.takeWhile_cons_of_neg (by simp [hd])]
  have e2 : List.dropWhile pyWs ((d :: ds) ++ (ws2 ++ (ch :: cs))) =
      (d :: ds) ++ (ws2 ++ (ch :: cs)) := by
    rw [List.cons_append, List.dropWhile_cons_of_neg (by simp [hd])]
  rw [e1, e2]
  have hci : takeIsCI "ability:".toList ((d :: ds) ++ (ws2 ++ (ch :: cs))) = true := by
    unfold takeIsCI
    rw [List.take_left' hlen, hlit]
    simp
  rw [if_pos hci]
  rw [List.take_left' hlen8, List.drop_left' hlen8]
  rw [List.takeWhile_append_of_pos hws2, List.dropWhile_append_of_pos hws2]
  rw [List.takeWhile_cons_of_neg (by simp [hch]),
    List.dropWhile_cons_of_neg (by simp [hch])]
  rw [pyRstrip_fix _ hlast]
  simp [List.append_assoc]

/-- Characters of `crToLf` output are never carriage returns. -/
theorem crToLf_no_cr (s : Str) : ∀ c ∈ crToLf s, c ≠ '\r' := by
  induction s using crToLf.induct with
  | case1 => simp [crToLf]
  | case2 rest ih =>
    intro c hc
    rw [crToLf] at hc
    rcases List.mem_cons.mp hc with rfl | h
    · decide
    · exact ih c h
  | case3 rest hne ih =>
    intro c hc
    rw [crToLf] at hc
    · rcases List.mem_cons.mp hc with rfl | h
      · decide
      · exact ih c h
    · exact hne
  | case4 c0 rest hne1 hne2 ih =>
    intro c hc
    rw [crToLf] at hc
    · rcases List.mem_cons.mp hc with rfl | h
      · exact hne2
      · exact ih c h
    · exact hne1
    · exact hne2

/-- Lemma: `dropFinalEmpty` only deletes a line. -/
theorem dropFinalEmpty_subset (L : List Str) (l : Str)
    (h : l ∈ dropFinalEmpty L) : l ∈ L := by
  unfold dropFinalEmpty at h
  by_cases hc : L.getLastD ['\n'] = []
  · rw [if_pos hc] at h; exact List.dropLast_subset _ h
  · rw [if_neg hc] at h; exact h

/-- Every line produced by `splitlinesPy` is free of newline and carriage
return characters. -/
theorem splitlinesPy_line_chars (t : Str) :
    ∀ l ∈ splitlinesPy t, ∀ c ∈ l, c ≠ '\n' ∧ c ≠ '\r' := by
  intro l hl c hc
  unfold splitlinesPy at hl
  have hl2 := dropFinalEmpty_subset _ _ hl
  have hm := splitOnCh_mem '\n' (crToLf t) l hl2 c hc
  exact ⟨hm.2, crToLf_no_cr t c hm.1⟩

/-- Every line of the trimmed line list of the first pass is
right-stripped and free of line-boundary characters. -/
theorem lines2_facts (t : Str) :
    ∀ l ∈ ((((splitlinesPy t).map pyRstrip).dropWhile
        (· = [])).reverse.dropWhile (· = [])).reverse,
      pyRstrip l = l ∧ ∀ c ∈ l, c ≠ '\n' ∧ c ≠ '\r' := by
  intro l hl
  rw [List.mem_reverse] at hl
  have hl2 := (List.dropWhile_suffix _).subset hl
  rw [List.mem_reverse] at hl2
  have hl3 := (List.dropWhile_suffix _).subset hl2
  rcases List.mem_map.mp hl3 with ⟨l0, hl0, rfl⟩
  refine ⟨pyRstrip_idem l0, fun c hc => ?_⟩
  exact splitlinesPy_line_chars t l0 hl0 c (pyRstrip_mem c l0 hc)

/-- Shape facts of the two concrete `As One` forms. -/
theorem asOne_shape (asone : Str) (h : asone = asOneGl ∨ asone = asOneSp) :
    (∃ c cs, asone = c :: cs ∧ pyWs c = false) ∧
      pyWs (asone.getLastD 'x') = false ∧
      ((asone.map Char.toLower).filter isSlugChar == "asone".toList) = false ∧
      ∀ c ∈ asone, c ≠ '\n' ∧ c ≠ '\r' := by
  rcases h with rfl | rfl
  · exact ⟨⟨'A', "s One (Glastrier)".toList, by decide, by decide⟩, by decide,
      by decide, by decide⟩
  · exact ⟨⟨'A', "s One (Spectrier)".toList, by decide, by decide⟩, by decide,
      by decide, by decide⟩

/-- The rewritten form of an ability line matches again, with the same
group 1 and the disambiguated value. -/
theorem matchAbilityLine_after_rewrite (l g1 v asone : Str)
    (hm : matchAbilityLine l = some (g1, v))
    (hsh : ∃ c cs, asone = c :: cs ∧ pyWs c = false)
    (hlast : pyWs (asone.getLastD 'x') = false) :
    matchAbilityLine (g1 ++ asone) = some (g1, asone) := by
  obtain ⟨hc, hg, -⟩ := matchAbilityLine_some l g1 v hm
  have h8 : ("ability:".toList : Str).length = 8 := by decide
  have hlit : ((l.dropWhile pyWs).take 8).map Char.toLower = "ability:".toList := by
    unfold takeIsCI at hc
    rw [h8] at hc
    exact beq_iff_eq.mp hc
  have hbuild := matchAbilityLine_build (l.takeWhile pyWs)
    ((l.dropWhile pyWs).take 8) (((l.dropWhile pyWs).drop 8).takeWhile pyWs)
    asone (fun c hc2 => List.mem_takeWhile_imp hc2) hlit
    (fun c hc2 => List.mem_takeWhile_imp hc2) hsh hlast
  rw [hg]
  exact hbuild

/-- Applying the per-line rewrite twice (with any second disambiguation
choice) equals applying it once. -/
theorem rewriteLine_idem (as1 : Str) (h1 : as1 = asOneGl ∨ as1 = asOneSp)
    (as2 l : Str) :
    rewriteLine as2 (rewriteLine as1 l) = rewriteLine as1 l := by
  cases hm : matchAbilityLine l with
  | none => simp only [rewriteLine, hm]
  | some gv =>
    obtain ⟨g1, v⟩ := gv
    by_cases hv : ((v.map Char.toLower).filter isSlugChar == "asone".toList) = true
    · obtain ⟨hsh, hlast, hnorm, -⟩ := asOne_shape as1 h1
      have hafter := matchAbilityLine_after_rewrite l g1 v as1 hm hsh hlast
      have e1 : rewriteLine as1 l = g1 ++ as1 := by
        simp only [rewriteLine, hm]
        rw [if_pos hv]
      rw [e1]
      simp only [rewriteLine, hafter]
      rw [if_neg (by simpa using hnorm)]
    · have e1 : rewriteLine as1 l = l := by
        simp only [rewriteLine, hm]
        rw [if_neg hv]
      rw [e1]
      simp only [rewriteLine, hm]
      rw [if_neg hv]

/-- The per-line rewrite preserves nonemptiness, right-strippedness and
absence of line-boundary characters. -/
theorem rewriteLine_shape (as1 : Str) (h1 : as1 = asOneGl ∨ as1 = asOneSp)
    (l : Str) (hne : l ≠ []) (hfix : pyRstrip l = l)
    (hnl : ∀ c ∈ l, c ≠ '\n' ∧ c ≠ '\r') :
    rewriteLine as1 l ≠ [] ∧ pyRstrip (rewriteLine as1 l) = rewriteLine as1 l ∧
      ∀ c ∈ rewriteLine as1 l, c ≠ '\n' ∧ c ≠ '\r' := by
  cases hm : matchAbilityLine l with
  | none =>
    simp only [rewriteLine, hm]
    exact ⟨hne, hfix, hnl⟩
  | some gv =>
    obtain ⟨g1, v⟩ := gv
    by_cases hv : ((v.map Char.toLower).filter isSlugChar == "asone".toList) = true
    · have e1 : rewriteLine as1 l = g1 ++ as1 := by
        simp only [rewriteLine, hm]
        rw [if_pos hv]
      rw [e1]
      obtain ⟨⟨ch, cs, hcc, -⟩, hlast, -, hnlas⟩ := asOne_shape as1 h1
      refine ⟨?_, ?_, ?_⟩
      · rw [hcc]; simp
      · apply pyRstrip_fix
        rw [getLastD_append_right _ _ _ (by rw [hcc]; simp)]
        exact hlast
      · intro c hc
        rcases List.mem_append.mp hc with h | h
        · have hg := (matchAbilityLine_some l g1 v hm).2.1
          rw [hg] at h
          have hcl : c ∈ l := by
            rcases List.mem_append.mp h with h2 | h2
            · rcases List.mem_append.mp h2 with h3 | h3
              · exact (List.takeWhile_prefix pyWs).subset h3
              · exact (List.dropWhile_suffix pyWs).subset (List.take_subset 8 _ h3)
            · exact (List.dropWhile_suffix pyWs).subset
                (List.drop_subset 8 _ ((List.takeWhile_prefix pyWs).subset h2))
          exact hnl c hcl
        · exact hnlas c h
    · have e1 : rewriteLine as1 l = l := by
        simp only [rewriteLine, hm]
        rw [if_neg hv]
      rw [e1]
      exact ⟨hne, hfix, hnl⟩

/-- The disambiguation choice of a block is one of the two forms. -/
theorem asOneChoice (header : Str) :
    (if searchCalyrexIce false header then asOneGl else asOneSp) = asOneGl ∨
      (if searchCalyrexIce false header then asOneGl else asOneSp) = asOneSp := by
  by_cases h : searchCalyrexIce false header = true
  · exact Or.inl (by rw [if_pos h])
  · exact Or.inr (by rw [if_neg h])

/-- The per-block pass preserves the line facts. -/
theorem normBlockLines_shape (b : List Str) (hb : b ≠ [])
    (hl : ∀ l ∈ b, l ≠ [] ∧ pyRstrip l = l ∧ ∀ c ∈ l, c ≠ '\n' ∧ c ≠ '\r') :
    normBlockLines b ≠ [] ∧
      ∀ l ∈ normBlockLines b, l ≠ [] ∧ pyRstrip l = l ∧
        ∀ c ∈ l, c ≠ '\n' ∧ c ≠ '\r' := by
  unfold normBlockLines
  constructor
  · simpa using hb
  · intro l hlm
    rcases List.mem_map.mp hlm with ⟨l0, hl0, rfl⟩
    obtain ⟨h1, h2, h3⟩ := hl l0 hl0
    exact rewriteLine_shape _ (asOneChoice (b.headD [])) l0 h1 h2 h3

/-- The per-block pass is idempotent. -/
theorem normBlockLines_idem (b : List Str) :
    normBlockLines (normBlockLines b) = normBlockLines b := by
  unfold normBlockLines
  rw [List.map_map]
  refine List.map_congr_left fun l _ => ?_
  exact rewriteLine_idem _ (asOneChoice (b.headD [])) _ l

/-- Characters of a join come from the pieces or the separator. -/
theorem joinWith_mem (sep : Str) (ls : List Str) :
    ∀ c ∈ joinWith sep ls, (∃ l ∈ ls, c ∈ l) ∨ c ∈ sep := by
  induction ls with
  | nil => intro c hc; cases hc
  | cons x t ih =>
    cases t with
    | nil => intro c hc; exact Or.inl ⟨x, List.mem_cons_self _ _, hc⟩
    | cons y t2 =>
      intro c hc
      rw [joinWith] at hc
      rcases List.mem_append.mp hc with h | h
      · rcases List.mem_append.mp h with h2 | h2
        · exact Or.inl ⟨x, List.mem_cons_self _ _, h2⟩
        · exact Or.inr h2
      · rcases ih c h with ⟨l, hl, hcl⟩ | h2
        · exact Or.inl ⟨l, List.mem_cons_of_mem x hl, hcl⟩
        · exact Or.inr h2

/-- Lemma: `normalize_team_text` with its `let`s flattened. -/
theorem ntt_def (t : Str) : normalize_team_text t =
    joinWith ['\n', '\n']
      ((blocksLoop ((((splitlinesPy t).map pyRstrip).dropWhile
          (· = [])).reverse.dropWhile (· = [])).reverse []).map
        fun b => joinWith ['\n'] (normBlockLines b)) ++ ['\n'] := rfl

/-- C8.  `normalize_team_text` is idempotent. -/
theorem normalize_team_text_idem (t : Str) :
    normalize_team_text (normalize_team_text t) = normalize_team_text t := by
  have hbl := blocksLoop_blocks ((((splitlinesPy t).map pyRstrip).dropWhile
      (· = [])).reverse.dropWhile (· = [])).reverse [] (by simp)
  have hlf := lines2_facts t
  set L2 := ((((splitlinesPy t).map pyRstrip).dropWhile
      (· = [])).reverse.dropWhile (· = [])).reverse with hL2
  set bs := blocksLoop L2 [] with hbs
  set bs' := bs.map normBlockLines with hbs'
  have hfacts : ∀ b ∈ bs', b ≠ [] ∧ ∀ l ∈ b, l ≠ [] ∧ pyRstrip l = l ∧
      ∀ c ∈ l, c ≠ '\n' ∧ c ≠ '\r' := by
    intro b hb
    rcases List.mem_map.mp hb with ⟨b0, hb0, rfl⟩
    have h0 := hbl b0 hb0
    refine normBlockLines_shape b0 h0.1 ?_
    intro l hl
    have h1 := h0.2 l hl
    have h2 : l ∈ L2 := by
      rcases h1.2 with h | h
      · exact h
      · cases h
    exact ⟨h1.1, (hlf l h2).1, (hlf l h2).2⟩
  by_cases hbse : bs' = []
  · have hbnil : bs = [] := by
      rcases List.map_eq_nil_iff.mp (hbs' ▸ hbse) with h
      exact h
    have hy : normalize_team_text t = ['\n'] := by
      rw [ntt_def t, ← hL2, ← hbs, hbnil]
      rfl
    rw [hy]
    decide
  · have hb1 : ∀ b ∈ bs', b ≠ [] := fun b hb => (hfacts b hb).1
    have hb2 : ∀ b ∈ bs', ∀ l ∈ b, l ≠ [] :=
      fun b hb l hl => ((hfacts b hb).2 l hl).1
    have hb3 : ∀ b ∈ bs', ∀ l ∈ b, pyRstrip l = l :=
      fun b hb l hl => ((hfacts b hb).2 l hl).2.1
    have hb4 : ∀ b ∈ bs', ∀ l ∈ b, ∀ c ∈ l, c ≠ '\n' ∧ c ≠ '\r' :=
      fun b hb l hl => ((hfacts b hb).2 l hl).2.2
    set SL := sepLines bs' with hSL
    have hnlSL : ∀ l ∈ SL, ∀ c ∈ l, c ≠ '\n' ∧ c ≠ '\r' := by
      intro l hl c hc
      rcases sepLines_mem bs' l hl with rfl | ⟨b, hb, hlb⟩
      · cases hc
      · exact hb4 b hb l hlb c hc
    have hy : normalize_team_text t = joinWith ['\n'] SL ++ ['\n'] := by
      rw [ntt_def t, ← hL2, ← hbs,
        show (bs.map fun b => joinWith ['\n'] (normBlockLines b)) =
          bs'.map (joinWith ['\n']) from by rw [hbs', List.map_map]; rfl,
        joinWith_sepLines bs' hb1]
    have hsplit : splitlinesPy (joinWith ['\n'] SL ++ ['\n']) = SL := by
      unfold splitlinesPy
      rw [crToLf_of_no_cr _ ?hnocr, splitOnCh_concat_sep,
        splitOnCh_joinWith '\n' SL (sepLines_ne_nil bs' hbse hb1)
          (fun l hl c hc => (hnlSL l hl c hc).1),
        dropFinalEmpty_concat]
      case hnocr =>
        intro c hc
        rcases List.mem_append.mp hc with h | h
        · rcases joinWith_mem ['\n'] SL c h with ⟨l, hl, hcl⟩ | h2
          · exact (hnlSL l hl c hcl).2
          · rcases List.mem_singleton.mp h2 with rfl; decide
        · rcases List.mem_singleton.mp h with rfl; decide
    have hrstrip : SL.map pyRstrip = SL := by
      calc SL.map pyRstrip = SL.map id := by
            refine List.map_congr_left fun l hl => ?_
            rcases sepLines_mem bs' l hl with rfl | ⟨b, hb, hlb⟩
            · rfl
            · exact hb3 b hb l hlb
        _ = SL := List.map_id _
    have hhead : SL.headD ['x'] ≠ [] := sepLines_headD bs' hb1 hb2
    have hlast : SL.getLastD ['x'] ≠ [] := sepLines_getLastD bs' hb1 hb2
    have hdw : SL.dropWhile (· = []) = SL := by
      cases hsl : SL with
      | nil => rfl
      | cons w ws =>
        rw [List.dropWhile_cons_of_neg]
        rw [hsl] at hhead
        simpa using hhead
    have hdwr : (SL.reverse.dropWhile (· = [])).reverse = SL :=
      rev_dropWhile_fix _ ['x'] SL (by simpa using hlast)
    have hbloop : blocksLoop SL [] = bs' := blocksLoop_sepLines bs' hb1 hb2
    have hnbl : bs'.map normBlockLines = bs' := by
      calc bs'.map normBlockLines
          = bs.map (normBlockLines ∘ normBlockLines) := by
            rw [hbs', List.map_map]
        _ = bs.map normBlockLines :=
            List.map_congr_left fun b _ => normBlockLines_idem b
        _ = bs' := hbs'.symm
    have hidem : ∀ b ∈ bs', normBlockLines b = b := by
      intro b hb
      rw [hbs'] at hb
      rcases List.mem_map.mp hb with ⟨b0, hb0, rfl⟩
      exact normBlockLines_idem b0
    have hmapeq : (bs'.map fun b => joinWith ['\n'] (normBlockLines b)) =
        bs'.map (joinWith ['\n']) :=
      List.map_congr_left fun b hb => by rw [hidem b hb]
    rw [hy, ntt_def (joinWith ['\n'] SL ++ ['\n']), hsplit, hrstrip, hdw, hdwr,
      hbloop, hmapeq, joinWith_sepLines bs' hb1]

/-- A row step never deletes files. -/
theorem processRow_fs_mono (env : ScrapeEnv) (cols : SheetCols) (dir : Str)
    (st : ScrapeState) (row : List Str) (e : Str × Str) (h : e ∈ st.fs) :
    e ∈ (processRow env cols dir st row).fs := by
  unfold processRow
  rcases hr : rowStep env cols dir st.seen st.subdirs row with ⟨out, seen2, sub2⟩
  cases out with
  | silent => exact h
  | banned => exact h
  | dup => exact h
  | reach team path =>
    dsimp only
    by_cases hex : st.fs.any (fun e2 => e2.1 == path) = true
    · rw [if_pos hex]; exact h
    · rw [if_neg hex]; exact List.mem_cons_of_mem _ h

/-- The row fold never deletes files. -/
theorem foldRows_fs_mono (env : ScrapeEnv) (cols : SheetCols) (dir : Str) :
    ∀ (rows : List (List Str)) (st : ScrapeState) (e : Str × Str), e ∈ st.fs →
      e ∈ (rows.foldl (processRow env cols dir) st).fs := by
  intro rows
  induction rows with
  | nil => intro st e h; exact h
  | cons r rest ih =>
    intro st e h
    rw [List.foldl_cons]
    exact ih _ e (processRow_fs_mono env cols dir st r e h)

/-- The sheet loop never deletes files. -/
theorem scrapeSheets_fs_mono (env : ScrapeEnv) (dir : Str) :
    ∀ (sheets : List (List (List Str))) (st r : ScrapeState),
      scrapeSheets env dir sheets st = some r → ∀ e ∈ st.fs, e ∈ r.fs := by
  intro sheets
  induction sheets with
  | nil =>
    intro st r h e he
    rw [scrapeSheets] at h
    simp only [Option.some_inj] at h
    subst h
    exact he
  | cons s rest ih =>
    intro st r h e he
    rw [scrapeSheets] at h
    cases hps : processSheet env dir st s with
    | none => rw [hps] at h; cases h
    | some st2 =>
      rw [hps] at h
      have hmem : e ∈ st2.fs := by
        unfold processSheet at hps
        cases hH : findHeaderIdx s with
        | none => rw [hH] at hps; cases hps
        | some i =>
          rw [hH] at hps
          dsimp only at hps
          cases hC : resolveCols (s.getD i []) with
          | none => rw [hC] at hps; cases hps
          | some cols =>
            rw [hC] at hps
            dsimp only at hps
            simp only [Option.some_inj] at hps
            subst hps
            exact foldRows_fs_mono env cols dir _ st e he
      exact ih st2 r h e hmem

/-- The two-run simulation over one sheet's rows: if the second run starts
with the same ledger and directory memo and a filesystem containing every
file the first run ends with, then the second run writes nothing, and its
already-existing counter grows by exactly the first run's saved plus
already-existing increments; ledgers and directory memos evolve
identically. -/
theorem foldRows_parallel (env : ScrapeEnv) (cols : SheetCols) (dir : Str) :
    ∀ (rows : List (List Str)) (s1 s2 : ScrapeState),
      s1.seen = s2.seen → s1.subdirs = s2.subdirs →
      (∀ e ∈ (rows.foldl (processRow env cols dir) s1).fs, e ∈ s2.fs) →
      (rows.foldl (processRow env cols dir) s2).fs = s2.fs ∧
        (rows.foldl (processRow env cols dir) s2).saved = s2.saved ∧
        (rows.foldl (processRow env cols dir) s2).skippedExisting + s1.saved +
            s1.skippedExisting =
          s2.skippedExisting + (rows.foldl (processRow env cols dir) s1).saved +
            (rows.foldl (processRow env cols dir) s1).skippedExisting ∧
        (rows.foldl (processRow env cols dir) s1).seen =
          (rows.foldl (processRow env cols dir) s2).seen ∧
        (rows.foldl (processRow env cols dir) s1).subdirs =
          (rows.foldl (processRow env cols dir) s2).subdirs := by
  intro rows
  induction rows with
  | nil =>
    intro s1 s2 hseen hsub hfs
    exact ⟨rfl, rfl, rfl, hseen, hsub⟩
  | cons r rest ih =>
    intro s1 s2 hseen hsub hfs
    rcases hr : rowStep env cols dir s1.seen s1.subdirs r with ⟨out, seen2, sub2⟩
    have hr2 : rowStep env cols dir s2.seen s2.subdirs r = (out, seen2, sub2) := by
      rw [← hseen, ← hsub]; exact hr
    simp only [List.foldl_cons] at hfs ⊢
    cases out with
    | silent =>
      have hu1 : processRow env cols dir s1 r =
          { s1 with seen := seen2, subdirs := sub2 } := by
        unfold processRow; rw [hr]
      have hu2 : processRow env cols dir s2 r =
          { s2 with seen := seen2, subdirs := sub2 } := by
        unfold processRow; rw [hr2]
      rw [hu1] at hfs
      rw [hu1, hu2]
      exact ih { s1 with seen := seen2, subdirs := sub2 }
        { s2 with seen := seen2, subdirs := sub2 } rfl rfl hfs
    | banned =>
      have hu1 : processRow env cols dir s1 r =
          { s1 with
            seen := seen2
            subdirs := sub2
            skippedBanned := s1.skippedBanned + 1 } := by
        unfold processRow; rw [hr]
      have hu2 : processRow env cols dir s2 r =
          { s2 with
            seen := seen2
            subdirs := sub2
            skippedBanned := s2.skippedBanned + 1 } := by
        unfold processRow; rw [hr2]
      rw [hu1] at hfs
      rw [hu1, hu2]
      exact ih
        { s1 with seen := seen2, subdirs := sub2, skippedBanned := s1.skippedBanned + 1 }
        { s2 with seen := seen2, subdirs := sub2, skippedBanned := s2.skippedBanned + 1 }
        rfl rfl hfs
    | dup =>
      have hu1 : processRow env cols dir s1 r =
          { s1 with
            seen := seen2
            subdirs := sub2
            skippedDuplicates := s1.skippedDuplicates + 1 } := by
        unfold processRow; rw [hr]
      have hu2 : processRow env cols dir s2 r =
          { s2 with
            seen := seen2
            subdirs := sub2
            skippedDuplicates := s2.skippedDuplicates + 1 } := by
        unfold processRow; rw [hr2]
      rw [hu1] at hfs
      rw [hu1, hu2]
      exact ih
        { s1 with seen := seen2, subdirs := sub2, skippedDuplicates := s1.skippedDuplicates + 1 }
        { s2 with seen := seen2, subdirs := sub2, skippedDuplicates := s2.skippedDuplicates + 1 }
        rfl rfl hfs
    | reach team path =>
      have hpath : ∃ e ∈ s2.fs, (e.1 == path) = true := by
        by_cases hex : s1.fs.any (fun e => e.1 == path) = true
        · rcases List.any_eq_true.mp hex with ⟨e, he, hep⟩
          refine ⟨e, ?_, hep⟩
          apply hfs
          have hu1 : processRow env cols dir s1 r =
              { s1 with
                seen := seen2
                subdirs := sub2
                skippedExisting := s1.skippedExisting + 1 } := by
            unfold processRow; rw [hr]; dsimp only; rw [if_pos hex]
          rw [hu1]
          exact foldRows_fs_mono env cols dir rest _ e he
        · have hu1 : processRow env cols dir s1 r =
              { s1 with
                seen := seen2
                subdirs := sub2
                fs := (path, team) :: s1.fs
                saved := s1.saved + 1 } := by
            unfold processRow; rw [hr]; dsimp only; rw [if_neg hex]
          refine ⟨(path, team), ?_, by simp⟩
          apply hfs
          rw [hu1]
          exact foldRows_fs_mono env cols dir rest _ _ (List.mem_cons_self _ _)
      have hex2 : s2.fs.any (fun e => e.1 == path) = true :=
        List.any_eq_true.mpr hpath
      have hu2 : processRow env cols dir s2 r =
          { s2 with
            seen := seen2
            subdirs := sub2
            skippedExisting := s2.skippedExisting + 1 } := by
        unfold processRow; rw [hr2]; dsimp only; rw [if_pos hex2]
      by_cases hex : s1.fs.any (fun e => e.1 == path) = true
      · have hu1 : processRow env cols dir s1 r =
            { s1 with
              seen := seen2
              subdirs := sub2
              skippedExisting := s1.skippedExisting + 1 } := by
          unfold processRow; rw [hr]; dsimp only; rw [if_pos hex]
        rw [hu1] at hfs
        rw [hu1, hu2]
        have hrec := ih
          { s1 with
            seen := seen2
            subdirs := sub2
            skippedExisting := s1.skippedExisting + 1 }
          { s2 with
            seen := seen2
            subdirs := sub2
            skippedExisting := s2.skippedExisting + 1 } rfl rfl hfs
        refine ⟨hrec.1, hrec.2.1, ?_, hrec.2.2.2⟩
        have harith := hrec.2.2.1
        dsimp only at harith ⊢
        omega
      · have hu1 : processRow env cols dir s1 r =
            { s1 with
              seen := seen2
              subdirs := sub2
              fs := (path, team) :: s1.fs
              saved := s1.saved + 1 } := by
          unfold processRow; rw [hr]; dsimp only; rw [if_neg hex]
        rw [hu1] at hfs
        rw [hu1, hu2]
        have hrec := ih
          { s1 with
            seen := seen2
            subdirs := sub2
            fs := (path, team) :: s1.fs
            saved := s1.saved + 1 }
          { s2 with
            seen := seen2
            subdirs := sub2
            skippedExisting := s2.skippedExisting + 1 } rfl rfl hfs
        refine ⟨hrec.1, hrec.2.1, ?_, hrec.2.2.2⟩
        have harith := hrec.2.2.1
        dsimp only at harith ⊢
        omega

/-- The two-run simulation lifted over the sheet loop. -/
theorem scrapeSheets_parallel (env : ScrapeEnv) (dir : Str) :
    ∀ (sheets : List (List (List Str))) (s1 s2 r1 : ScrapeState),
      s1.seen = s2.seen → s1.subdirs = s2.subdirs →
      scrapeSheets env dir sheets s1 = some r1 →
      (∀ e ∈ r1.fs, e ∈ s2.fs) →
      ∃ r2, scrapeSheets env dir sheets s2 = some r2 ∧
        r2.fs = s2.fs ∧ r2.saved = s2.saved ∧
        r2.skippedExisting + s1.saved + s1.skippedExisting =
          s2.skippedExisting + r1.saved + r1.skippedExisting := by
  intro sheets
  induction sheets with
  | nil =>
    intro s1 s2 r1 hseen hsub h1 hfs
    rw [scrapeSheets] at h1
    simp only [Option.some_inj] at h1
    subst h1
    refine ⟨s2, rfl, rfl, rfl, ?_⟩
    omega
  | cons s rest ih =>
    intro s1 s2 r1 hseen hsub h1 hfs
    rw [scrapeSheets] at h1
    cases hps : processSheet env dir s1 s with
    | none => rw [hps] at h1; cases h1
    | some u1 =>
      rw [hps] at h1
      unfold processSheet at hps
      cases hH : findHeaderIdx s with
      | none => rw [hH] at hps; cases hps
      | some i =>
        rw [hH] at hps
        dsimp only at hps
        cases hC : resolveCols (s.getD i []) with
        | none => rw [hC] at hps; cases hps
        | some cols =>
          rw [hC] at hps
          dsimp only at hps
          simp only [Option.some_inj] at hps
          have hfs1 : ∀ e ∈ ((s.drop (i + 1)).foldl (processRow env cols dir) s1).fs,
              e ∈ s2.fs := by
            intro e he
            rw [hps] at he
            exact hfs e (scrapeSheets_fs_mono env dir rest u1 r1 h1 e he)
          have hpar := foldRows_parallel env cols dir (s.drop (i + 1)) s1 s2
            hseen hsub hfs1
          set u2 := (s.drop (i + 1)).foldl (processRow env cols dir) s2 with hu2
          have h1' : scrapeSheets env dir rest u1 = some r1 := h1
          have hfs2 : ∀ e ∈ r1.fs, e ∈ u2.fs := by
            intro e he
            rw [hpar.1]
            exact hfs e he
          have hrec := ih u1 u2 r1
            (by rw [← hps]; exact hpar.2.2.2.1)
            (by rw [← hps]; exact hpar.2.2.2.2) h1' hfs2
          obtain ⟨r2, hr2, hr2fs, hr2saved, hr2skE⟩ := hrec
          refine ⟨r2, ?_, ?_, ?_, ?_⟩
          · rw [scrapeSheets]
            unfold processSheet
            rw [hH]
            dsimp only
            rw [hC]
            dsimp only
            rw [← hu2]
            exact hr2
          · rw [hr2fs, hpar.1]
          · rw [hr2saved, hpar.2.1]
          · have hA := hpar.2.2.1
            have hB : u1.saved = ((s.drop (i + 1)).foldl
                (processRow env cols dir) s1).saved := by rw [hps]
            have hB2 : u1.skippedExisting = ((s.drop (i + 1)).foldl
                (processRow env cols dir) s1).skippedExisting := by rw [hps]
            omega

/-- C1 amended.  Over any fixed data source, whenever a run succeeds, a
rerun over the resulting filesystem also succeeds, writes nothing (the
on-disk state is identical after the second run), and reports as already
existing exactly the first run's saved files plus the files the first run
itself found already existing.  The original claim's equality
`skipped_existing₂ = saved₁` holds exactly when the first run skipped
nothing as already existing; it fails otherwise (see the
counterexample). -/
theorem C1_second_run_inventory (env : ScrapeEnv) (regulation : Str)
    (fs0 : List (Str × Str)) (r1 : ScrapeState)
    (h : scrape_regulation env regulation fs0 = some r1) :
    ∃ r2, scrape_regulation env regulation r1.fs = some r2 ∧
      r2.fs = r1.fs ∧ r2.saved = 0 ∧
      r2.skippedExisting = r1.saved + r1.skippedExisting := by
  unfold scrape_regulation at h ⊢
  obtain ⟨r2, h2, hfs, hsaved, hskE⟩ := scrapeSheets_parallel env _ env.sheets
    (initState fs0) (initState r1.fs) r1 rfl rfl h (fun e he => he)
  refine ⟨r2, h2, hfs, hsaved, ?_⟩
  have h0 : (initState fs0).saved = 0 := rfl
  have h1 : (initState fs0).skippedExisting = 0 := rfl
  have h2' : (initState r1.fs).skippedExisting = 0 := rfl
  omega

/-- Witness for C1: the amended theorem applied to the header-only data
source, where a successful first run saves nothing. -/
theorem C1_second_run_inventory_witness :
    ∃ r2, scrape_regulation envC "g".toList (initState []).fs = some r2 ∧
      r2.fs = (initState []).fs ∧ r2.saved = 0 ∧
      r2.skippedExisting = (initState []).saved + (initState []).skippedExisting :=
  C1_second_run_inventory envC "g".toList [] (initState []) (by rfl)

end VGC
